import Mathlib

/-!
Verification of the nearest-match diagnostic engine
(`src/lib/intercom_test/http_best_matches.py`).

Shallow embedding conventions:

* Python `str` is modelled as `List Char` (`Str`), so that all string
  operations reduce inside the Lean kernel.  Lowercasing is modelled for
  ASCII letters (`lowChar`), which covers HTTP methods.
* Python `dict` (for test cases and requests) is modelled as an
  association list `PyDict` whose lookups return the first matching key,
  like a Python dict with unique keys.
* `difflib.SequenceMatcher` (standard library, not part of this
  repository) is modelled after its documented behaviour: repeated
  longest-matching-block decomposition, where the longest matching block
  is the maximal-length common contiguous run, earliest in `a` and then
  earliest in `b`; opcodes are derived by walking the matching blocks.
  The autojunk heuristic (only active for sequences of 200+ elements) and
  the merging of adjacent equal blocks (unobservable through this module,
  which ignores `equal` opcodes) are not modelled.
* Python's stable `sorted` and `heapq` are modelled with
  `List.insertionSort` / `List.orderedInsert` (stable insertion keeps a
  pushed element after existing elements it does not strictly precede).
  Heap keys in this module always contain the unique insertion index, so
  pop order is fully determined.
* Wall-clock deadline checks (`time.time() >= self.deadline`) are not
  modelled: the embedding corresponds to runs where the deadline is never
  reached (the module default for `_Reporter` is `deadline=math.inf`).
* The leftover debugger-attach statement inside `Database._case_key`'s
  `value_lens` (line 67) evaluates to a no-op on a non-tty stdout and is
  treated, as the spec says, as an accidental dev artifact; only the pure
  value transformation of `value_lens` is modelled.
-/

/-- Python strings as lists of characters (kernel-computable). -/
abbrev Str := List Char

/-- Character list of a Lean string literal. -/
def chars (s : String) : Str := s.data

/-- ASCII lowercase of one character, as `str.lower` acts on ASCII. -/
def lowChar (c : Char) : Char :=
  if 'A' ≤ c ∧ c ≤ 'Z' then Char.ofNat (c.toNat + 32) else c

/-- ASCII `str.lower`. -/
def strLower (s : Str) : Str := s.map lowChar

/-- Lexicographic comparison of strings, mirroring Python `str` ordering
on code points. -/
def strLe : Str → Str → Bool
  | [], _ => true
  | _ :: _, [] => false
  | c :: cs, d :: ds => if c = d then strLe cs ds else decide (c < d)

/-- Splitting on a separator character, mirroring `str.split(sep)`. -/
def splitOnCharAux (c : Char) : List Char → List Char → List Str
  | [], acc => [acc.reverse]
  | d :: ds, acc =>
    if d = c then acc.reverse :: splitOnCharAux c ds []
    else splitOnCharAux c ds (d :: acc)

/-- Splitting on a separator character, mirroring `str.split(sep)`. -/
def splitOnChar (c : Char) (s : Str) : List Str := splitOnCharAux c s []

/-- Split at the first occurrence of `c`: `some (before, after)` if `c`
occurs, else `none` (mirrors `str.split(c, 1)`). -/
def splitFirst (c : Char) : Str → Option (Str × Str)
  | [] => none
  | d :: ds =>
    if d = c then some ([], ds)
    else (splitFirst c ds).map (fun p => (d :: p.1, p.2))

/-- First-match association lookup, like indexing a Python dict. -/
def lookupA {κ ν : Type} [DecidableEq κ] (k : κ) : List (κ × ν) → Option ν
  | [] => none
  | (k2, v) :: rest => if k2 = k then some v else lookupA k rest

/-- Key membership in an association list. -/
def containsKey {κ ν : Type} [DecidableEq κ] (k : κ) (l : List (κ × ν)) : Bool :=
  (lookupA k l).isSome

/-- `dict` comprehension with later duplicates overwriting earlier ones
(`dict((key(case), case) for case in cases)` keeps the last value). -/
def dictOfPairs {κ ν : Type} [DecidableEq κ] : List (κ × ν) → List (κ × ν)
  | [] => []
  | (k, v) :: rest =>
    let tail := dictOfPairs rest
    if containsKey k tail then tail else (k, v) :: tail

/-- One `setdefault`-append step of `_group_dict`. -/
def groupAdd {κ ν : Type} [DecidableEq κ]
    (acc : List (κ × List ν)) (k : κ) (x : ν) : List (κ × List ν) :=
  if containsKey k acc then
    acc.map (fun p => if p.1 = k then (p.1, p.2 ++ [x]) else p)
  else acc ++ [(k, [x])]

/-- `_group_dict`: group values by key, keys in first-encounter order,
values in encounter order. -/
def group_dict {κ ν : Type} [DecidableEq κ] (l : List (κ × ν)) : List (κ × List ν) :=
  l.foldl (fun acc kx => groupAdd acc kx.1 kx.2) []

/-! ## JSON data model

`JSON_TYPES = (type(None), str, int, float, list, dict)` (source line 721)
fixes the JSON value universe handled by this module; `float` values are
carried as opaque literals (never computed with), and dict keys are
strings, as produced by `json.loads`. -/

/-- `JsonType`: the `IntEnum` over `JSON_TYPES`, in declaration order. -/
inductive JsonType where
  | NoneType : JsonType
  | str : JsonType
  | int : JsonType
  | float : JsonType
  | list : JsonType
  | dict : JsonType
  deriving DecidableEq, Repr

/-- Numeric value of the `IntEnum` member (1-based, as in Python). -/
def JsonType.val : JsonType → Nat
  | .NoneType => 1
  | .str => 2
  | .int => 3
  | .float => 4
  | .list => 5
  | .dict => 6

/-- `JsonType.is_collection`: `self >= self.list` on the `IntEnum`. -/
def JsonType.is_collection (t : JsonType) : Bool := 5 ≤ t.val

mutual
/-- A JSON-compatible value over `JSON_TYPES`. -/
inductive JVal where
  | null : JVal
  | str : Str → JVal
  | int : Int → JVal
  | float : Str → JVal
  | list : JList → JVal
  | dict : JDict → JVal
  deriving DecidableEq
/-- A JSON array (kept as a nested inductive for structural recursion). -/
inductive JList where
  | nil : JList
  | cons : JVal → JList → JList
  deriving DecidableEq
/-- A JSON object: string keys in insertion order, unique as in Python. -/
inductive JDict where
  | nil : JDict
  | cons : Str → JVal → JDict → JDict
  deriving DecidableEq
end

/-- The items of a JSON array as a Lean list. -/
def JList.toList : JList → List JVal
  | .nil => []
  | .cons v t => v :: t.toList

/-- The entries of a JSON object in insertion order. -/
def JDict.entries : JDict → List (Str × JVal)
  | .nil => []
  | .cons k v t => (k, v) :: t.entries

/-- `lookup_json_type(type(v))`: the `JsonType` of a value. -/
def lookup_json_type : JVal → JsonType
  | .null => .NoneType
  | .str _ => .str
  | .int _ => .int
  | .float _ => .float
  | .list _ => .list
  | .dict _ => .dict

/-- One segment of a key path: a list index or an object key. -/
inductive PathSeg where
  | idx : Nat → PathSeg
  | key : Str → PathSeg
  deriving DecidableEq, Repr

/-- A key path: tuple of segments locating a node, `[]` is the root. -/
abbrev KeyPath := List PathSeg

/-- Payload part of a node signature: a scalar's value, a list's element
types, or a dict's (key, value-type) set in canonical key-sorted order
(the canonical order models `frozenset` equality). -/
inductive SigPayload where
  | scalar : JVal → SigPayload
  | listTypes : List JsonType → SigPayload
  | dictKeyTypes : List (Str × JsonType) → SigPayload
  deriving DecidableEq

/-- A node signature, the pair built by `JsonWalker`:
`(lookup_json_type(type(value)), value)` for scalars,
`(JsonType.list, tuple(child types))` for lists,
`(JsonType.dict, frozenset((k, type) pairs))` for dicts. -/
abbrev Sig := JsonType × SigPayload

/-- Boolean `≤` on `JsonType` by enum value. -/
def jtLe (a b : JsonType) : Bool := a.val ≤ b.val

/-- Lexicographic `≤` on lists of `JsonType`. -/
def jtListLe : List JsonType → List JsonType → Bool
  | [], _ => true
  | _ :: _, [] => false
  | a :: as2, b :: bs => if a = b then jtListLe as2 bs else decide (a.val < b.val)

/-- Lexicographic `≤` on canonical dict (key, type) lists. -/
def ktListLe : List (Str × JsonType) → List (Str × JsonType) → Bool
  | [], _ => true
  | _ :: _, [] => false
  | (k1, t1) :: r1, (k2, t2) :: r2 =>
    if k1 = k2 then
      if t1 = t2 then ktListLe r1 r2 else decide (t1.val < t2.val)
    else strLe k1 k2

/-- Boolean value `≤` for scalar payloads of one `JsonType` (a total
surrogate; Python only ever sorts collection signatures, where it is not
consulted). -/
def scalarLe : JVal → JVal → Bool
  | .str a, .str b => strLe a b
  | .int a, .int b => decide (a ≤ b)
  | .float a, .float b => strLe a b
  | _, _ => true

/-- Total `≤` on signatures: enum value first, then payload.  This is the
sort key `itemgetter(0)` used by `JsonMap._index_substructures`;
comparisons between two dict signatures use the canonical key-sorted
form (Python compares `frozenset`s, a partial order, so its `sorted` can
interleave incomparable dict signatures differently; the claims proved
here do not depend on that relative order). -/
def sigLe (a b : Sig) : Bool :=
  if a.1 = b.1 then
    match a.2, b.2 with
    | .scalar x, .scalar y => scalarLe x y
    | .listTypes x, .listTypes y => jtListLe x y
    | .dictKeyTypes x, .dictKeyTypes y => ktListLe x y
    | _, _ => true
  else decide (a.1.val < b.1.val)

/-- A walk entry: `(signature, raw value, key path)`. -/
abbrev WalkEntry := Sig × JVal × KeyPath

/-- Pair-by-string-key `≤`, for sorting association lists by key. -/
def keyFstLe {ν : Type} (a b : Str × ν) : Prop := strLe a.1 b.1 = true

instance {ν : Type} : DecidableRel (@keyFstLe ν) :=
  fun a b => decEq (strLe a.1 b.1) true

/-- Signature of a list node: type tag plus ordered child types. -/
def listSig (l : JList) : Sig := (JsonType.list, .listTypes (l.toList.map lookup_json_type))

/-- Signature of a dict node: type tag plus the (key, child-type) set,
canonically key-sorted to model `frozenset` equality. -/
def dictSig (d : JDict) : Sig :=
  (JsonType.dict, .dictKeyTypes
    (List.insertionSort keyFstLe (d.entries.map (fun e => (e.1, lookup_json_type e.2)))))

mutual
/-- `JsonWalker._walk_node`: yields `(sig, value, key_path)` for every
node, root first, lists in index order, dict children in sorted-key
order. -/
def walkNode : JVal → KeyPath → List WalkEntry
  | .list l, kp => (listSig l, .list l, kp) :: walkListItems l kp 0
  | .dict d, kp =>
    (dictSig d, .dict d, kp) ::
      (List.insertionSort keyFstLe (walkDictItems d kp)).flatMap (fun e => e.2)
  | v, kp => ((lookup_json_type v, .scalar v), v, kp) :: []
/-- Walk of the items of a list, accumulating indices. -/
def walkListItems : JList → KeyPath → Nat → List WalkEntry
  | .nil, _, _ => []
  | .cons v t, kp, i => walkNode v (kp ++ [.idx i]) ++ walkListItems t kp (i + 1)
/-- Per-key walks of the entries of a dict (sorted by the caller, since
`_visit_dict` iterates `sorted(d)`). -/
def walkDictItems : JDict → KeyPath → List (Str × List WalkEntry)
  | .nil, _ => []
  | .cons k v t, kp => (k, walkNode v (kp ++ [.key k])) :: walkDictItems t kp
end

/-- `JsonMap`: the flattened index of one document. -/
structure JsonMap where
  json_index : List WalkEntry
  deriving DecidableEq

/-- Build the `JsonMap` of a document (`JsonWalker().walk(json_data)`). -/
def JsonMap.of (j : JVal) : JsonMap := ⟨walkNode j []⟩

/-- Collection entries sorted by signature
(`JsonMap._index_substructures`). -/
def JsonMap.sortedSubstructs (m : JsonMap) : List WalkEntry :=
  List.insertionSort (fun a b : WalkEntry => sigLe a.1 b.1 = true)
    (m.json_index.filter (fun e => e.1.1.is_collection))

/-- `JsonMap.substruct_signatures`: collection signatures in sorted
order. -/
def JsonMap.substruct_signatures (m : JsonMap) : List Sig :=
  m.sortedSubstructs.map (fun e => e.1)

/-- `JsonMap.substruct_key_paths`: key paths aligned with
`substruct_signatures`. -/
def JsonMap.substruct_key_paths (m : JsonMap) : List KeyPath :=
  m.sortedSubstructs.map (fun e => e.2.2)

/-- `JsonMap.substruct_locations`: document-order `(key_path, sig)` pairs
of collection nodes. -/
def JsonMap.substruct_locations (m : JsonMap) : List (KeyPath × Sig) :=
  (m.json_index.filter (fun e => e.1.1.is_collection)).map (fun e => (e.2.2, e.1))

/-- `JsonMap.scalars`: document-order `(key_path, value)` pairs of scalar
nodes. -/
def JsonMap.scalars (m : JsonMap) : List (KeyPath × JVal) :=
  (m.json_index.filter (fun e => !e.1.1.is_collection)).map (fun e => (e.2.2, e.2.1))

/-- `JsonMap.items_from_signature`: document values grouped by signature. -/
def JsonMap.items_from_signature (m : JsonMap) (sig : Sig) : List JVal :=
  (lookupA sig (group_dict (m.json_index.map (fun e => (e.1, e.2.1))))).getD []

/-! ## SequenceMatcher model

`difflib.SequenceMatcher(None, a, b)` as used throughout the module,
modelled by its documented algorithm (see the header comment). -/

/-- Length of the common leading run of two lists. -/
def cpl {α : Type} [DecidableEq α] : List α → List α → Nat
  | x :: xs, y :: ys => if x = y then cpl xs ys + 1 else 0
  | _, _ => 0

/-- The contiguous sliceL `l[i : i+k]`. -/
def sliceL {α : Type} (l : List α) (i k : Nat) : List α := (l.drop i).take k

/-- Length of the matching run of `a[i:ahi]` against `b[j:bhi]` starting
at positions `i`, `j`. -/
def matchLen {α : Type} [DecidableEq α] (a b : List α) (ahi bhi i j : Nat) : Nat :=
  cpl (sliceL a i (ahi - i)) (sliceL b j (bhi - j))

/-- All candidate matching blocks `(i, j, run length)` for
`find_longest_match`, in scan order (ascending `i`, then `j`). -/
def flmCandidates {α : Type} [DecidableEq α]
    (a b : List α) (alo ahi blo bhi : Nat) : List (Nat × Nat × Nat) :=
  (List.range' alo (ahi - alo)).flatMap fun i =>
    (List.range' blo (bhi - blo)).map fun j => (i, j, matchLen a b ahi bhi i j)

/-- Keep the strictly longer block (mirrors `if k > bestsize` with scan
order, so ties keep the earliest `i`, then earliest `j`). -/
def flmPick (best c : Nat × Nat × Nat) : Nat × Nat × Nat :=
  if best.2.2 < c.2.2 then c else best

/-- `SequenceMatcher.find_longest_match` on the ranges
`a[alo:ahi]`, `b[blo:bhi]`: the longest matching block, earliest in `a`,
then earliest in `b`; `(alo, blo, 0)` if none. -/
def find_longest_match {α : Type} [DecidableEq α]
    (a b : List α) (alo ahi blo bhi : Nat) : Nat × Nat × Nat :=
  (flmCandidates a b alo ahi blo bhi).foldl flmPick (alo, blo, 0)

/-- Recursive decomposition behind `get_matching_blocks` (fuel-based for
structural recursion; the top-level call supplies sufficient fuel). -/
def matchingBlocksAux {α : Type} [DecidableEq α] :
    Nat → List α → List α → Nat → Nat → Nat → Nat → List (Nat × Nat × Nat)
  | 0, _, _, _, _, _, _ => []
  | fuel + 1, a, b, alo, ahi, blo, bhi =>
    let ijk := find_longest_match a b alo ahi blo bhi
    if ijk.2.2 = 0 then []
    else
      matchingBlocksAux fuel a b alo ijk.1 blo ijk.2.1 ++
        ijk :: matchingBlocksAux fuel a b (ijk.1 + ijk.2.2) ahi (ijk.2.1 + ijk.2.2) bhi

/-- `SequenceMatcher.get_matching_blocks` (without the merging of
adjacent blocks, which is unobservable through this module), ending with
the terminal block `(len(a), len(b), 0)`. -/
def get_matching_blocks {α : Type} [DecidableEq α] (a b : List α) : List (Nat × Nat × Nat) :=
  matchingBlocksAux (a.length + b.length + 1) a b 0 a.length 0 b.length ++
    [(a.length, b.length, 0)]

/-- Opcode tags of `SequenceMatcher.get_opcodes`. -/
inductive OpTag where
  | replace : OpTag
  | delete : OpTag
  | insert : OpTag
  | equal : OpTag
  deriving DecidableEq, Repr

/-- One opcode `(tag, i1, i2, j1, j2)`. -/
structure Opcode where
  tag : OpTag
  i1 : Nat
  i2 : Nat
  j1 : Nat
  j2 : Nat
  deriving DecidableEq, Repr

/-- The walk from matching blocks to opcodes inside `get_opcodes`. -/
def opcodesAux : Nat → Nat → List (Nat × Nat × Nat) → List Opcode
  | _, _, [] => []
  | i, j, (ai, bj, k) :: rest =>
    let pre : List Opcode :=
      if i < ai ∧ j < bj then [⟨.replace, i, ai, j, bj⟩]
      else if i < ai then [⟨.delete, i, ai, j, bj⟩]
      else if j < bj then [⟨.insert, i, ai, j, bj⟩]
      else []
    let eq : List Opcode := if k = 0 then [] else [⟨.equal, ai, ai + k, bj, bj + k⟩]
    pre ++ eq ++ opcodesAux (ai + k) (bj + k) rest

/-- `SequenceMatcher.get_opcodes`. -/
def get_opcodes {α : Type} [DecidableEq α] (a b : List α) : List Opcode :=
  opcodesAux 0 0 (get_matching_blocks a b)

/-- Edit cost `sum(max(i2-i1, j2-j1))` over non-equal opcodes, the metric
of `dist_from_request_addnl_fields` and of `QStringComparer.diff`. -/
def opcodesEditCount (ops : List Opcode) : Nat :=
  (ops.map (fun op =>
    if op.tag = .equal then 0 else max (op.i2 - op.i1) (op.j2 - op.j1))).foldl (· + ·) 0

/-! ## JsonComparer -/

/-- A substructure edit, as yielded by `_substruct_signature_diffs` and
`_substruct_location_diffs` (the Python dicts `{'alt': .., 'to': ..,
'congruent options': ..}`, `{'del': ..}`, `{'add': .., 'congruent
options': ..}`). -/
inductive StructEdit where
  | alt : KeyPath → Sig → List JVal → StructEdit
  | del : KeyPath → StructEdit
  | add : Sig → List JVal → StructEdit
  deriving DecidableEq

/-- A scalar edit, as yielded by `_scalar_diffs` (`{'set': .., 'to': ..}`,
`{'del': ..}`, `{'ins': ..}`). -/
inductive ScalarEdit where
  | set : KeyPath → JVal → ScalarEdit
  | del : KeyPath → ScalarEdit
  | ins : JVal → ScalarEdit
  deriving DecidableEq

/-- Edits for one opcode in the two substructure tiers: `min` paired
`alt`s (the `zip` over `_alt_range`), then leftover `del`s, then leftover
`add`s carrying the congruent case values. -/
def structEditsFor (caseMap : JsonMap) (kps : List KeyPath) (sigs : List Sig)
    (op : Opcode) : List StructEdit :=
  if op.tag = .equal then []
  else
    let cur := sliceL kps op.i1 (op.i2 - op.i1)
    let targ := sliceL sigs op.j1 (op.j2 - op.j1)
    let m := min (op.i2 - op.i1) (op.j2 - op.j1)
    (List.zipWith (fun kp sig => StructEdit.alt kp sig (caseMap.items_from_signature sig))
        (cur.take m) (targ.take m)) ++
      (cur.drop m).map StructEdit.del ++
      (targ.drop m).map (fun sig => StructEdit.add sig (caseMap.items_from_signature sig))

/-- Edits for one opcode in the scalar tier: `set`s, then `del`s, then
`ins`es. -/
def scalarEditsFor (kps : List KeyPath) (vals : List JVal) (op : Opcode) : List ScalarEdit :=
  if op.tag = .equal then []
  else
    let cur := sliceL kps op.i1 (op.i2 - op.i1)
    let targ := sliceL vals op.j1 (op.j2 - op.j1)
    let m := min (op.i2 - op.i1) (op.j2 - op.j1)
    (List.zipWith ScalarEdit.set (cur.take m) (targ.take m)) ++
      (cur.drop m).map ScalarEdit.del ++
      (targ.drop m).map ScalarEdit.ins

/-- `JsonComparer._substruct_signature_diffs`: align the sorted signature
sequences, emit edits per non-equal alignment block. -/
def substruct_signature_diffs (ref_map case_map : JsonMap) : List StructEdit :=
  (get_opcodes ref_map.substruct_signatures case_map.substruct_signatures).flatMap
    (structEditsFor case_map ref_map.substruct_key_paths case_map.substruct_signatures)

/-- `JsonComparer._substruct_location_diffs`: align the document-order
`(key_path, sig)` sequences. -/
def substruct_location_diffs (ref_map case_map : JsonMap) : List StructEdit :=
  (get_opcodes ref_map.substruct_locations case_map.substruct_locations).flatMap
    (structEditsFor case_map (ref_map.substruct_locations.map (fun e => e.1))
      (case_map.substruct_locations.map (fun e => e.2)))

/-- `JsonComparer._scalar_diffs`: align the document-order
`(key_path, value)` sequences. -/
def scalar_diffs (ref_map case_map : JsonMap) : List ScalarEdit :=
  (get_opcodes ref_map.scalars case_map.scalars).flatMap
    (scalarEditsFor (ref_map.scalars.map (fun e => e.1)) (case_map.scalars.map (fun e => e.2)))

/-- `JsonComparer.Delta`: the 3-tuple of edit sequences. -/
structure Delta where
  structure_diffs : List StructEdit
  structure_location_diffs : List StructEdit
  scalar_diffs : List ScalarEdit
  deriving DecidableEq

/-- `Delta.edit_distance`: `tuple(map(len, self))`. -/
def Delta.edit_distance (d : Delta) : Nat × Nat × Nat :=
  (d.structure_diffs.length, d.structure_location_diffs.length, d.scalar_diffs.length)

/-- Python tuple `<` on the 3-tuples returned by `edit_distance`
(lexicographic). -/
def tripleLt (x y : Nat × Nat × Nat) : Prop :=
  x.1 < y.1 ∨ (x.1 = y.1 ∧ (x.2.1 < y.2.1 ∨ (x.2.1 = y.2.1 ∧ x.2.2 < y.2.2)))

instance : DecidableRel tripleLt := by
  intro x y
  unfold tripleLt
  infer_instance

/-- `JsonComparer.diff`: three strictly ordered tiers, each computed only
if the previous tier is empty. -/
def JsonComparer.diff (ref case : JVal) : Delta :=
  if substruct_signature_diffs (JsonMap.of ref) (JsonMap.of case) ≠ [] then
    ⟨substruct_signature_diffs (JsonMap.of ref) (JsonMap.of case), [], []⟩
  else if substruct_location_diffs (JsonMap.of ref) (JsonMap.of case) ≠ [] then
    ⟨[], substruct_location_diffs (JsonMap.of ref) (JsonMap.of case), []⟩
  else ⟨[], [], scalar_diffs (JsonMap.of ref) (JsonMap.of case)⟩

/-! ## QStringComparer -/

/-- An ordered query-parameter sequence (`(name, value)` pairs). -/
abbrev QParams := List (Str × Str)

/-- One query-string edit operation, as yielded by
`QStringComparer._mods`. -/
inductive QMod where
  | chg : Str → Str → Str → QMod
  | del : Str → Str → QMod
  | add : Str → Str → QMod
  deriving DecidableEq

/-- `QStringComparer.Delta`: `(edits, params, mods)`. -/
structure QDelta where
  edits : Nat
  params : List (Str × List Str)
  mods : List QMod
  deriving DecidableEq

/-- Mods for one opcode: zipped pairs become `chg` (same name) or
`del`+`add` (different names); leftovers become pure `del`/`add`. -/
def qmodsFor (ref_qsparams case_qsparams : QParams) (op : Opcode) : List QMod :=
  if op.tag = .equal then []
  else
    let cur := sliceL ref_qsparams op.i1 (op.i2 - op.i1)
    let targ := sliceL case_qsparams op.j1 (op.j2 - op.j1)
    let m := min (op.i2 - op.i1) (op.j2 - op.j1)
    ((cur.take m).zip (targ.take m)).flatMap
      (fun p =>
        if p.1.1 = p.2.1 then [QMod.chg p.1.1 p.1.2 p.2.2]
        else [QMod.del p.1.1 p.1.2, QMod.add p.2.1 p.2.2]) ++
      (cur.drop m).map (fun p => QMod.del p.1 p.2) ++
      (targ.drop m).map (fun p => QMod.add p.1 p.2)

/-- Parameter names touched by one non-equal opcode (both sides). -/
def qTouchedFor (ref_qsparams case_qsparams : QParams) (op : Opcode) : List Str :=
  if op.tag = .equal then []
  else
    (sliceL ref_qsparams op.i1 (op.i2 - op.i1)).map (fun p => p.1) ++
      (sliceL case_qsparams op.j1 (op.j2 - op.j1)).map (fun p => p.1)

/-- `QStringComparer.diff`. -/
def QStringComparer.diff (ref_qsparams case_qsparams : QParams) : QDelta :=
  let opcodes := get_opcodes ref_qsparams case_qsparams
  let delta_params := (opcodes.flatMap (qTouchedFor ref_qsparams case_qsparams)).dedup
  let edits := opcodesEditCount opcodes
  let delta_param_values :=
    group_dict ((case_qsparams.filter (fun p => p.1 ∈ delta_params)).map (fun p => (p.1, p.2)))
  ⟨edits, delta_param_values, opcodes.flatMap (qmodsFor ref_qsparams case_qsparams)⟩

/-! ## Levenshtein distance

`Levenshtein.distance` (external C library) modelled by the classic
dynamic program, one row per element of the first sequence. -/

/-- Continuation of one DP row: `c` against remaining `t`, walking the
previous row; `prev` is the newest cell. -/
def levAux {β : Type} [DecidableEq β] (c : β) : List β → List Nat → Nat → List Nat
  | [], _, _ => []
  | _ :: _, [], _ => []
  | d :: ds, oldPrev :: oldRest, prev =>
    let cur := min (min ((oldRest.headD 0) + 1) (prev + 1))
      (oldPrev + if c = d then 0 else 1)
    cur :: levAux c ds oldRest cur

/-- Next DP row for one element of the first sequence. -/
def levNext {β : Type} [DecidableEq β] (t : List β) (row : List Nat) (c : β) : List Nat :=
  match row with
  | [] => []
  | h :: _ => (h + 1) :: levAux c t row (h + 1)

/-- Plain edit (Levenshtein) distance between two sequences. -/
def levDistance {β : Type} [DecidableEq β] (s t : List β) : Nat :=
  (s.foldl (levNext t) (List.range (t.length + 1))).getLastD 0

/-! ## Python-side data model: cases and requests -/

/-- A value stored in a case/request mapping: a JSON value or a byte
sequence. -/
inductive PyVal where
  | j : JVal → PyVal
  | bytes : List Nat → PyVal
  deriving DecidableEq

/-- A Python dict with string keys (unique keys, insertion order). -/
abbrev PyDict := List (Str × PyVal)

/-- `d.get(k)`. -/
def pyGet (m : PyDict) (k : Str) : Option PyVal := lookupA k m

/-- Python types distinguished by `type(...)` comparisons in the module. -/
inductive PyType where
  | NoneT : PyType
  | StrT : PyType
  | IntT : PyType
  | FloatT : PyType
  | ListT : PyType
  | DictT : PyType
  | BytesT : PyType
  deriving DecidableEq, Repr

/-- `type(v)` of a stored value. -/
def pyTypeOf : PyVal → PyType
  | .j .null => .NoneT
  | .j (.str _) => .StrT
  | .j (.int _) => .IntT
  | .j (.float _) => .FloatT
  | .j (.list _) => .ListT
  | .j (.dict _) => .DictT
  | .bytes _ => .BytesT

/-- `request.get('request body')`: Python returns `None` for a missing
key, indistinguishable from a stored JSON `null`. -/
def reqBody (m : PyDict) : PyVal := (pyGet m (chars "request body")).getD (.j .null)

/-- `_is_jsonic_body`: `not isinstance(body, (str, bytes))`. -/
def is_jsonic_body (b : PyVal) : Bool :=
  !(pyTypeOf b = .StrT ∨ pyTypeOf b = .BytesT : Bool)

/-- The JSON value of a jsonic body (never applied to bytes). -/
def jvalOf : PyVal → JVal
  | .j v => v
  | .bytes _ => .null

/-! ## URL handling

`urlparse`/`parse_qsl` (standard library) modelled for the
relative `path[?query][#fragment]` URLs this module receives: the path
is everything before the first `?` (with any fragment stripped), and the
query string is parsed by splitting on `&` and then on the first `=`,
skipping chunks without `=` and chunks with an empty value, as
`parse_qsl` does with its defaults (percent-decoding and `+` handling
are not modelled; the URLs involved use neither). -/

/-- Strip the fragment and split path from query string. -/
def urlSplit (u : Str) : Str × Str :=
  let noFrag := (splitFirst '#' u).map Prod.fst |>.getD u
  match splitFirst '?' noFrag with
  | some (p, q) => (p, q)
  | none => (noFrag, [])

/-- `parse_qsl` on a raw query string. -/
def parse_qsl (q : Str) : QParams :=
  (splitOnChar '&' q).filterMap fun chunk =>
    match splitFirst '=' chunk with
    | none => none
    | some (n, v) => if v = [] then none else some (n, v)

/-- `url` field of a mapping, when present as a string. -/
def getStrField (m : PyDict) (k : Str) : Option Str :=
  match pyGet m k with
  | some (.j (.str s)) => some s
  | _ => none

/-- `_request_url_path(case)`: `urlparse(case['url']).path`; `none`
models the `KeyError`/`TypeError` on a missing or non-string `url`. -/
def request_url_path (m : PyDict) : Option Str :=
  (getStrField m (chars "url")).map (fun u => (urlSplit u).1)

/-- `_request_url(case)`: `(path, tuple(sorted(parse_qsl(query))))`, the
query pairs sorted by parameter name (stable). -/
def request_url (m : PyDict) : Option (Str × QParams) :=
  (getStrField m (chars "url")).map fun u =>
    ((urlSplit u).1,
      List.insertionSort keyFstLe (parse_qsl (urlSplit u).2))

/-- `_http_method(case)`: `case.get('method', 'get').lower()`; `none`
models the `AttributeError` on a present non-string value. -/
def http_method (m : PyDict) : Option Str :=
  match pyGet m (chars "method") with
  | none => some (chars "get")
  | some (.j (.str s)) => some (strLower s)
  | some _ => none

/-- `_reqline(case)`: `(method, url)`. -/
def reqline (m : PyDict) : Option (Str × Str) :=
  match http_method m, getStrField m (chars "url") with
  | some meth, some u => some (meth, u)
  | _, _ => none

/-! ## Case keys and the Database -/

/-- A value after `value_lens` tagging: byte sequences are tagged
distinctly from every plain value. -/
inductive TaggedVal where
  | plain : PyVal → TaggedVal
  | binary : Str → TaggedVal
  deriving DecidableEq

/-- Model of `str(bytes)`: an injective textual rendering (the precise
Python `repr` format is irrelevant to key equality). -/
def pyBytesRepr (bs : List Nat) : Str :=
  bs.flatMap (fun n => Nat.toDigits 10 n ++ [','])

/-- `value_lens` inside `_case_key`: tag byte values as
`('binary', str(v))`, pass every other value through. -/
def value_lens : PyVal → TaggedVal
  | .bytes bs => .binary (pyBytesRepr bs)
  | v => .plain v

/-- `request_key` inside `_case_key`: the selected key set. -/
def request_key (addKeys : List Str) (k : Str) : Bool :=
  k = chars "method" ∨ k = chars "url" ∨ k = chars "request body" ∨ k ∈ addKeys

/-- The items of `FilteredDictView(request, key_filter=request_key,
value_transform=value_lens)`, in dict order. -/
def filteredTaggedItems (addKeys : List Str) (m : PyDict) : List (Str × TaggedVal) :=
  (m.filter (fun e => request_key addKeys e.1)).map (fun e => (e.1, value_lens e.2))

/-- A derived case key: canonically ordered selected fields. -/
abbrev CaseKey := List (Str × Option TaggedVal)

/-- Sorting relation on plain strings. -/
def strLeP (a b : Str) : Prop := strLe a b = true

instance : DecidableRel strLeP := fun a b => decEq (strLe a b) true

/-- Modelled from the spec: `intercom_test.cases.hash_from_fields` (the
stable hashing/key-derivation collaborator, whose source is not part of
this repository).  Per the spec it must be a deterministic function of
the view's field/value contents, usable as an exact-match dictionary
key; it is modelled as the canonical key-sorted list of the view's
(field, value) pairs, which is deterministic, content-injective and
insensitive to dict iteration order. -/
def hash_from_fields (view : List (Str × TaggedVal)) : CaseKey :=
  (List.insertionSort strLeP ((view.map Prod.fst).dedup)).map fun k => (k, lookupA k view)

/-- `Database._case_key`. -/
def case_key (addKeys : List Str) (m : PyDict) : CaseKey :=
  hash_from_fields (filteredTaggedItems addKeys m)

/-- The four indices of `Database`, plus the construction inputs.  The
spec's non-mutation guarantees are stated by threading this value
through operations. -/
instance : DecidableEq (CaseKey × PyDict) := inferInstance

instance : DecidableEq ((Str × Str) × List PyDict) := inferInstance

instance : DecidableEq (Str × QParams) := inferInstance

instance : DecidableEq ((Str × QParams) × List PyDict) := inferInstance

instance : DecidableEq (Str × List PyDict) := inferInstance

structure Database where
  cases : List PyDict
  additional_request_keys : List Str
  responses : List (CaseKey × PyDict)
  reqlines : List ((Str × Str) × List PyDict)
  urls : List ((Str × QParams) × List PyDict)
  paths : List (Str × List PyDict)
  deriving DecidableEq

/-- A case the `Database` constructor accepts without raising: `method`
absent or a string, `url` a string. -/
def caseOk (c : PyDict) : Bool :=
  (http_method c).isSome && (getStrField c (chars "url")).isSome

/-- Total variants of the grouping keys, used only on validated cases. -/
def reqline_d (c : PyDict) : Str × Str := (reqline c).getD (chars "get", [])

/-- Total variant of `_request_url`, used only on validated cases. -/
def request_url_d (c : PyDict) : Str × QParams := (request_url c).getD ([], [])

/-- Total variant of `_request_url_path`, used only on validated cases. -/
def request_url_path_d (c : PyDict) : Str := (request_url_path c).getD []

/-- `Database.__init__`: build the exact-match dict and the three
groupings; `none` models the constructor raising on a malformed case. -/
def Database.build (cases : List PyDict) (addKeys : List Str) : Option Database :=
  if cases.all caseOk then
    some
      { cases := cases
        additional_request_keys := addKeys
        responses := dictOfPairs (cases.map (fun c => (case_key addKeys c, c)))
        reqlines := group_dict (cases.map (fun c => (reqline_d c, c)))
        urls := group_dict (cases.map (fun c => (request_url_d c, c)))
        paths := group_dict (cases.map (fun c => (request_url_path_d c, c))) }
  else none

/-- `Database.get_case`: exact lookup by case key. -/
def Database.get_case (db : Database) (request : PyDict) : Option PyDict :=
  lookupA (case_key db.additional_request_keys request) db.responses

/-! ## Reports -/

/-- The closed set of report variants. -/
inductive Report where
  | additionalFields : List (List (Str × PyVal)) → Report
  | availablePaths : List (Str × List PyDict) → Report
  | jsonBodies : List (Delta × PyDict) → Report
  | scalarBodies : List PyDict → Report
  | httpMethods : List Str → Report
  | qstringParamsets : List (QDelta × PyDict) → Report
  deriving DecidableEq

/-! ## The tiered reporter -/

/-- Sorted filtered additional-field items of one mapping
(`sorted(FilteredDictView(case, key_filter=is_addnl_field).items())`). -/
def addnlFieldValues (addnlKeys : List Str) (m : PyDict) : List (Str × PyVal) :=
  List.insertionSort keyFstLe (m.filter (fun e => e.1 ∈ addnlKeys))

/-- `_Reporter._get_additional_fields_mismatch` over the same-reqline
cases: `none` when the request's additional-field value set is among the
known ones, otherwise the closest 5 known value sets. -/
def get_additional_fields_mismatch (db : Database) (req : PyDict)
    (cases : List PyDict) : Option Report :=
  let addnlKeys := db.additional_request_keys.filter
    (fun k => !(k = chars "method" ∨ k = chars "url" ∨ k = chars "request body" : Bool))
  let possible_value_sets := (cases.map (addnlFieldValues addnlKeys)).foldl
    (fun acc fv => if fv ∈ acc then acc else acc ++ [fv]) []
  let request_addnl_fields := addnlFieldValues addnlKeys req
  if request_addnl_fields ∈ possible_value_sets then none
  else
    let dist := fun (vs : List (Str × PyVal)) =>
      opcodesEditCount (get_opcodes request_addnl_fields vs)
    some (Report.additionalFields
      ((List.insertionSort (fun a b => dist a ≤ dist b) possible_value_sets).take 5))

/-- Heap entries of `_report_closest_request_bodies`:
`(diff.edit_distance(), i, diff, case)`. -/
abbrev BodyHeapItem := ((Nat × Nat × Nat) × Nat) × Delta × PyDict

/-- Python tuple `≤` on `((edit_distance, index))` heap keys. -/
def bodyKeyLe (x y : (Nat × Nat × Nat) × Nat) : Prop :=
  tripleLt x.1 y.1 ∨ (x.1 = y.1 ∧ x.2 ≤ y.2)

instance : DecidableRel bodyKeyLe := by
  intro x y
  unfold bodyKeyLe
  infer_instance

/-- Heap order on body heap entries (keys are unique: they contain the
insertion index). -/
def bodyHeapLe (x y : BodyHeapItem) : Prop := bodyKeyLe x.1 y.1

instance : DecidableRel bodyHeapLe := fun x y => by
  unfold bodyHeapLe
  infer_instance

/-- The enumerated heap items diffed against each type-matching case. -/
def bodyHeapItems (refJ : JVal) (available_cases : List PyDict) : List BodyHeapItem :=
  available_cases.enum.map fun ci =>
    let diff := JsonComparer.diff refJ (jvalOf (reqBody ci.2))
    ((diff.edit_distance, ci.1), diff, ci.2)

/-- The `heapq` state after pushing all items: modelled as the stably
sorted list, from which `heappop` takes the head. -/
def heapOfItems {β : Type} (le : β → β → Prop) [DecidableRel le] (items : List β) : List β :=
  items.foldl (fun h x => List.orderedInsert le x h) []

/-- Levenshtein distance between two scalar (string or bytes) request
bodies. -/
def scalarBodyDist (reqbody : PyVal) (c : PyDict) : Nat :=
  match reqbody, reqBody c with
  | .j (.str s), .j (.str t) => levDistance s t
  | .bytes xs, .bytes ys => levDistance xs ys
  | _, _ => 0

/-- `_Reporter._report_closest_request_bodies` over the same-reqline
cases. -/
def report_closest_request_bodies (req : PyDict) (cases : List PyDict) : Report :=
  let request_body := reqBody req
  let reqbody_type := pyTypeOf request_body
  let available_cases := cases.filter (fun c => pyTypeOf (reqBody c) = reqbody_type)
  if is_jsonic_body request_body then
    let heap := heapOfItems bodyHeapLe (bodyHeapItems (jvalOf request_body) available_cases)
    Report.jsonBodies ((heap.take (min 5 heap.length)).map (fun x => x.2))
  else
    Report.scalarBodies
      ((List.insertionSort
        (fun a b => scalarBodyDist request_body a ≤ scalarBodyDist request_body b)
        available_cases).take 5)

/-- Option-valued traversal of a list (explicit, kernel-computable
`mapM` over `Option`). -/
def mapMO {α β : Type} (f : α → Option β) : List α → Option (List β)
  | [] => some []
  | a :: l =>
    match f a, mapMO f l with
    | some b, some bs => some (b :: bs)
    | _, _ => none

/-- `_Reporter._report_available_methods` over the same-url cases. -/
def report_available_methods (cases : List PyDict) : Option Report :=
  (mapMO http_method cases).map (fun ms => Report.httpMethods ms.dedup)

/-- Heap entries of `_report_closest_query_params`:
`(diff.edits, i, diff, case)`. -/
abbrev QHeapItem := (Nat × Nat) × QDelta × PyDict

/-- Python tuple `≤` on `(edits, index)` heap keys. -/
def qKeyLe (x y : Nat × Nat) : Prop := x.1 < y.1 ∨ (x.1 = y.1 ∧ x.2 ≤ y.2)

instance : DecidableRel qKeyLe := by
  intro x y
  unfold qKeyLe
  infer_instance

/-- Heap order on query-string heap entries. -/
def qHeapLe (x y : QHeapItem) : Prop := qKeyLe x.1 y.1

instance : DecidableRel qHeapLe := fun x y => by
  unfold qHeapLe
  infer_instance

/-- `_Reporter._report_closest_query_params` over the same-path cases;
`none` models a raising `_request_url` on a malformed case. -/
def report_closest_query_params (request_qsparams : QParams)
    (cases : List PyDict) : Option Report :=
  (mapMO (fun c => (request_url c).map (fun u => u.2)) cases).map fun paramLists =>
    let items : List QHeapItem := (paramLists.zip cases).enum.map fun dci =>
      let diff := QStringComparer.diff request_qsparams dci.2.1
      ((diff.edits, dci.1), diff, dci.2.2)
    let heap := heapOfItems qHeapLe items
    Report.qstringParamsets ((heap.take (min 5 heap.length)).map (fun x => x.2))

/-- `_Reporter.report`: the fixed fallback ladder.  `none` models an
exception escaping (e.g. a request without a `url`). -/
def Database.report (db : Database) (req : PyDict) : Option Report := do
  let rl ← reqline req
  match lookupA rl db.reqlines with
  | some cases =>
    match get_additional_fields_mismatch db req cases with
    | some r => some r
    | none => some (report_closest_request_bodies req cases)
  | none =>
    let u ← request_url req
    match lookupA u db.urls with
    | some cases => report_available_methods cases
    | none =>
      let request_path := (urlSplit ((getStrField req (chars "url")).getD [])).1
      match lookupA request_path db.paths with
      | some cases => report_closest_query_params u.2 cases
      | none =>
        let dist := fun (p : Str) => levDistance p request_path
        let closest_paths :=
          (List.insertionSort (fun a b => dist a ≤ dist b) (db.paths.map (fun e => e.1))).take 5
        some (Report.availablePaths
          (closest_paths.map (fun p => (p, (lookupA p db.paths).getD []))))

/-- `Database.best_matches` (the deadline never being reached; see the
header comment). -/
def Database.best_matches (db : Database) (req : PyDict) : Option Report :=
  db.report req

/-! ## JSON serialization of reports -/

/-- JSON-compatible output data of `as_jsonic_data` and `json_exchange`
(`arr` covers both Python lists and tuples; `bytesRaw` marks a value
`json.dump` could not serialize, which no claim exercises). -/
inductive OutVal where
  | null : OutVal
  | str : Str → OutVal
  | int : Int → OutVal
  | float : Str → OutVal
  | bool : Bool → OutVal
  | arr : List OutVal → OutVal
  | obj : List (Str × OutVal) → OutVal
  | bytesRaw : List Nat → OutVal

mutual
/-- A JSON value as output data. -/
def outOfJ : JVal → OutVal
  | .null => .null
  | .str s => .str s
  | .int n => .int n
  | .float f => .float f
  | .list l => .arr (outOfJList l)
  | .dict d => .obj (outOfJDict d)
/-- Array items as output data. -/
def outOfJList : JList → List OutVal
  | .nil => []
  | .cons v t => outOfJ v :: outOfJList t
/-- Object entries as output data. -/
def outOfJDict : JDict → List (Str × OutVal)
  | .nil => []
  | .cons k v t => (k, outOfJ v) :: outOfJDict t
end

/-- A stored value as output data. -/
def outOfPy : PyVal → OutVal
  | .j v => outOfJ v
  | .bytes bs => .bytesRaw bs

/-- A key path as output data (a Python tuple of keys/indices). -/
def kpOut (kp : KeyPath) : OutVal :=
  .arr (kp.map fun s => match s with
    | .idx n => .int n
    | .key k => .str k)

/-- `JsonType.construct()`: the default instance of each JSON type. -/
def JsonType.construct : JsonType → OutVal
  | .NoneType => .null
  | .str => .str []
  | .int => .int 0
  | .float => .float (chars "0.0")
  | .list => .arr []
  | .dict => .obj []

/-- `AvailableJsonRequestBodiesReport._json_struct_desc`. -/
def json_struct_desc (sig : Sig) : OutVal :=
  match sig.2 with
  | .listTypes ts => .arr (ts.map JsonType.construct)
  | .dictKeyTypes kts => .obj (kts.map (fun e => (e.1, e.2.construct)))
  | .scalar _ => .null

/-- `_json_mod_json` on a substructure edit. -/
def structModJson (mod : StructEdit) : OutVal :=
  match mod with
  | .alt kp sig _ => .obj [(chars "alt", kpOut kp), (chars "to", json_struct_desc sig)]
  | .del kp => .obj [(chars "del", kpOut kp)]
  | .add sig _ => .obj [(chars "add", json_struct_desc sig)]

/-- `_json_mod_json` on a scalar edit (note: an `ins` edit matches none
of its cases and serializes as an empty dict). -/
def scalarModJson (mod : ScalarEdit) : OutVal :=
  match mod with
  | .set kp v => .obj [(chars "set", kpOut kp), (chars "to", outOfJ v)]
  | .del kp => .obj [(chars "del", kpOut kp)]
  | .ins _ => .obj []

/-- `AvailableJsonRequestBodiesReport._json_diff_json`. -/
def json_diff_json (d : Delta) : OutVal :=
  if d.structure_diffs ≠ [] then
    .obj [(chars "alter substructures", .arr (d.structure_diffs.map structModJson))]
  else if d.structure_location_diffs ≠ [] then
    .obj [(chars "rearrange substructures", .arr (d.structure_location_diffs.map structModJson))]
  else if d.scalar_diffs ≠ [] then
    .obj [(chars "alter scalar values", .arr (d.scalar_diffs.map scalarModJson))]
  else .null

/-- `case.get('description')` as output data. -/
def descOf (c : PyDict) : OutVal := ((pyGet c (chars "description")).map outOfPy).getD .null

/-- Base64 alphabet. -/
def b64alphabet : Str := chars "ABCDEFGHIJKLMNOPQRSTUVWXYZabcdefghijklmnopqrstuvwxyz0123456789+/"

/-- Base64 digit for a 6-bit value. -/
def b64digit (n : Nat) : Char := b64alphabet.getD n 'A'

/-- `b64encode(body).decode('ASCII')`. -/
def b64encode : List Nat → Str
  | [] => []
  | [a] => [b64digit (a / 4), b64digit (a % 4 * 16), '=', '=']
  | [a, b] => [b64digit (a / 4), b64digit (a % 4 * 16 + b / 16), b64digit (b % 16 * 4), '=']
  | a :: b :: c :: rest =>
    [b64digit (a / 4), b64digit (a % 4 * 16 + b / 16), b64digit (b % 16 * 4 + c / 64),
      b64digit (c % 64)] ++ b64encode rest

/-- `AvailableScalarRequestBodiesReport._body_json`. -/
def body_json (b : PyVal) : List (Str × OutVal) :=
  match b with
  | .bytes bs => [(chars "request body", .str (b64encode bs)), (chars "isBase64Encoded", .bool true)]
  | _ => [(chars "request body", outOfPy b)]

/-- One query-string mod as output data. -/
def qmodJson (m : QMod) : OutVal :=
  match m with
  | .chg f c t => .obj [(chars "field", .str f), (chars "chg", .str c), (chars "to", .str t)]
  | .del f v => .obj [(chars "field", .str f), (chars "del", .str v)]
  | .add f v => .obj [(chars "field", .str f), (chars "add", .str v)]

/-- `Report.as_jsonic_data` across all six variants, each a single fixed
top-level key. -/
def Report.as_jsonic_data : Report → List (Str × OutVal)
  | .additionalFields sets =>
    [(chars "available additional test case field value sets",
      .arr (sets.map (fun vs => .obj (vs.map (fun e => (e.1, outOfPy e.2))))))]
  | .availablePaths groups =>
    [(chars "closest URL paths",
      .arr (groups.map fun pc =>
        .arr [.str pc.1,
          .arr ((pc.2.filterMap (fun c => pyGet c (chars "description"))).map outOfPy)]))]
  | .jsonBodies entries =>
    [(chars "minimal JSON request body deltas",
      .arr (entries.map fun dc =>
        .obj [(chars "case description", descOf dc.2), (chars "diff", json_diff_json dc.1)]))]
  | .scalarBodies cases =>
    [(chars "closest request bodies",
      .arr (cases.map fun c =>
        .obj ((chars "case description", descOf c) :: body_json (reqBody c))))]
  | .httpMethods ms => [(chars "available HTTP methods", .arr (ms.map .str))]
  | .qstringParamsets entries =>
    [(chars "minimal query string deltas",
      .arr (entries.map fun dc =>
        .obj [(chars "case description", descOf dc.2),
          (chars "diff",
            .obj [(chars "params with differing value sequences",
                .obj (dc.1.params.map (fun p => (p.1, .arr (p.2.map .str))))),
              (chars "mods", .arr (dc.1.mods.map qmodJson))])]))]

/-- `Database.json_exchange` on an already-parsed request (the JSON
transport itself is not modelled): the written output paired with the
post-call database state (mutation is modelled by explicit state
threading; the code copies the matched case before `setdefault`). -/
def Database.json_exchange (db : Database) (request : PyDict) :
    Option (List (Str × OutVal) × Database) :=
  match db.get_case request with
  | some case =>
    let response := case.map (fun e => (e.1, outOfPy e.2))
    let response :=
      if containsKey (chars "response status") response then response
      else response ++ [(chars "response status", OutVal.int 200)]
    some (response, db)
  | none =>
    (db.report request).map fun r =>
      ((r.as_jsonic_data).filter (fun e => e.1 ≠ chars "response status"), db)


/-! ## Auxiliary predicates for the SequenceMatcher proofs -/

/-- Validity of a `find_longest_match` result on a range. -/
def FlmValid {α : Type} (a b : List α) (alo ahi blo bhi : Nat) (r : Nat × Nat × Nat) : Prop :=
  alo ≤ r.1 ∧ blo ≤ r.2.1 ∧ r.1 + r.2.2 ≤ ahi ∧ r.2.1 + r.2.2 ≤ bhi ∧
    sliceL a r.1 r.2.2 = sliceL b r.2.1 r.2.2


/-- Soundness of a matching-block list: blocks advance monotonically
from the cursor, stay within bounds, and are genuine matches. -/
inductive Chain {α : Type} (a b : List α) (hi hj : Nat) : Nat → Nat → List (Nat × Nat × Nat) → Prop where
  | nil : ∀ i j, i ≤ hi → j ≤ hj → Chain a b hi hj i j []
  | cons : ∀ i j ai bj k tl, i ≤ ai → j ≤ bj → ai + k ≤ hi → bj + k ≤ hj →
      sliceL a ai k = sliceL b bj k → Chain a b hi hj (ai + k) (bj + k) tl →
      Chain a b hi hj i j ((ai, bj, k) :: tl)


/-- Shape facts holding for every opcode `get_opcodes` emits. -/
def OpcodeBounds (la lb : Nat) (op : Opcode) : Prop :=
  op.i1 ≤ op.i2 ∧ op.i2 ≤ la ∧ op.j1 ≤ op.j2 ∧ op.j2 ≤ lb ∧
    (op.tag = OpTag.replace → op.i1 < op.i2 ∧ op.j1 < op.j2) ∧
    (op.tag = OpTag.delete → op.i1 < op.i2) ∧
    (op.tag = OpTag.insert → op.j1 < op.j2)


/-- The spec's three-way body representation classes. -/
inductive ReprType where
  | stringRep : ReprType
  | bytesRep : ReprType
  | structuredRep : ReprType
  deriving DecidableEq, Repr

/-- Written from the spec's words, for comparison with the source's
eligibility test: the body *representation type*, "string vs. byte
sequence vs. structured". -/
def specReprType (b : PyVal) : ReprType :=
  match b with
  | .j (.str _) => .stringRep
  | .bytes _ => .bytesRep
  | _ => .structuredRep

/-! ## Concrete scenario fixtures -/

/-- A minimal case/request mapping with a method and a url. -/
def mkCase (m u : String) : PyDict :=
  [(chars "method", .j (.str (chars m))), (chars "url", .j (.str (chars u)))]

/-- A case/request mapping with a method, a url and a request body. -/
def mkCaseB (m u : String) (b : PyVal) : PyDict :=
  mkCase m u ++ [(chars "request body", b)]

/-- A one-case database fixture (the case `get /a`). -/
def dbOneCase : Database := (Database.build [mkCase "get" "/a"] []).get (by decide)

/-- A two-case same-reqline fixture with integer JSON bodies. -/
def dbTwoBodies : Database :=
  (Database.build
    [mkCaseB "post" "/x" (.j (.int 1)), mkCaseB "post" "/x" (.j (.int 5))] []).get (by decide)

/-- The recorded cases of the wrong-path scenario. -/
def wrongPathCases : List PyDict :=
  [mkCase "get" "/food/hippopatamus", mkCase "get" "/food", mkCase "get" "/food/cat",
    mkCase "get" "/food/goat", mkCase "get" "/food/dog", mkCase "get" "/food/pig",
    mkCase "get" "/food/brachiosaurus"]

/-- The position of the first occurrence of `a` in a list (the rank used
to state insertion-order tie-breaking of the stable path sort). -/
def posIn {α : Type} [DecidableEq α] (a : α) : List α → Nat
  | [] => 0
  | b :: l => if b = a then 0 else posIn a l + 1

/-- The wrong-path scenario database. -/
def dbWrongPaths : Database := (Database.build wrongPathCases []).get (by decide)

/-! ## Verification

Everything below is a theorem; the definitions above are complete. -/

example : levDistance (chars "/foo") (chars "/food") = 1 := by decide

example : levDistance (chars "/foo") (chars "/food/goat") = 6 := by decide

example : levDistance (chars "kitten") (chars "sitting") = 3 := by decide

example :
    (JsonComparer.diff (.int 3) (.int 3)) = ⟨[], [], []⟩ := by decide

example :
    (JsonComparer.diff (.int 3) (.int 4)) =
      ⟨[], [], [ScalarEdit.set [] (.int 4)]⟩ := by decide

example :
    (QStringComparer.diff [] [(chars "bar", chars "BQ")]).mods =
      [QMod.add (chars "bar") (chars "BQ")] := by decide

example :
    ((Database.build [mkCase "get" "/foo?bar=BQ"] []).bind
        (fun db => db.best_matches (mkCase "get" "/foo"))) =
      some (.qstringParamsets
        [(⟨1, [(chars "bar", [chars "BQ"])], [QMod.add (chars "bar") (chars "BQ")]⟩,
          mkCase "get" "/foo?bar=BQ")]) := by decide

example :
    ((Database.build [mkCase "post" "/foo"] []).bind
        (fun db => db.best_matches (mkCase "get" "/foo"))) =
      some (.httpMethods [chars "post"]) := by decide

example :
    ((Database.build wrongPathCases []).bind
        (fun db => db.best_matches (mkCase "get" "/foo"))).map
        (fun r => match r with
          | .availablePaths groups => some (groups.map (fun e => e.1))
          | _ => none) =
      some (some [chars "/food", chars "/food/cat", chars "/food/dog", chars "/food/pig",
        chars "/food/goat"]) := by decide

example :
    ((Database.build [] []).bind (fun db => db.best_matches (mkCase "get" "/foo"))) =
      some (.availablePaths []) := by decide

example :
    ((Database.build [] []).bind (fun db => db.best_matches (mkCase "get" "/foo"))).map
        (fun r => r.as_jsonic_data) =
      some [(chars "closest URL paths", .arr [])] := rfl

example :
    ((Database.build [mkCaseB "post" "/x" (.j (.dict .nil))] []).bind
        (fun db => db.best_matches (mkCaseB "post" "/x" (.j (.list .nil))))) =
      some (.jsonBodies []) := by decide

example :
    ((Database.build
          [mkCaseB "post" "/x" (.j (.dict (.cons (chars "a") (.int 1) .nil)))] []).bind
        (fun db => db.best_matches
          (mkCaseB "post" "/x" (.j (.dict (.cons (chars "a") (.int 2) .nil)))))).map
        (fun r => match r with
          | .jsonBodies entries => some (entries.map (fun e => e.1))
          | _ => none) =
      some (some [⟨[], [], [.set [.key (chars "a")] (.int 1)]⟩]) := by decide

example :
    ((Database.build [mkCase "get" "/a"] []).map
        (fun db => db.get_case (mkCase "get" "/a"))) =
      some (some (mkCase "get" "/a")) := by decide

example :
    ((Database.build [mkCase "get" "/a"] []).map
        (fun db => db.get_case (mkCase "GET" "/a"))) =
      some none := by decide

example :
    ((Database.build [mkCase "get" "/a"] []).map
        (fun db =>
          (db.json_exchange (mkCase "get" "/a")).map
            (fun od => containsKey (chars "response status") od.1))) =
      some (some true) := by decide

example :
    ((Database.build [mkCase "get" "/a"] []).map
        (fun db =>
          (db.json_exchange (mkCase "put" "/a")).map
            (fun od => containsKey (chars "response status") od.1))) =
      some (some false) := by decide

theorem cpl_le_left {α : Type} [DecidableEq α] (xs ys : List α) : cpl xs ys ≤ xs.length := by
  induction xs generalizing ys with
  | nil => simp [cpl]
  | cons x xs ih =>
    cases ys with
    | nil => simp [cpl]
    | cons y ys =>
      by_cases h : x = y <;> simp [cpl, h] <;> exact ih ys

theorem cpl_le_right {α : Type} [DecidableEq α] (xs ys : List α) : cpl xs ys ≤ ys.length := by
  induction xs generalizing ys with
  | nil => simp [cpl]
  | cons x xs ih =>
    cases ys with
    | nil => simp [cpl]
    | cons y ys =>
      by_cases h : x = y <;> simp [cpl, h]
      exact ih ys

theorem cpl_self {α : Type} [DecidableEq α] (xs : List α) : cpl xs xs = xs.length := by
  induction xs with
  | nil => simp [cpl]
  | cons x xs ih => simp [cpl, ih]

theorem take_cpl_eq {α : Type} [DecidableEq α] (xs ys : List α) :
    xs.take (cpl xs ys) = ys.take (cpl xs ys) := by
  induction xs generalizing ys with
  | nil => simp [cpl]
  | cons x xs ih =>
    cases ys with
    | nil => simp [cpl]
    | cons y ys =>
      by_cases h : x = y <;> simp [cpl, h]
      exact ih ys

theorem matchLen_le_left {α : Type} [DecidableEq α] (a b : List α) (ahi bhi i j : Nat) :
    matchLen a b ahi bhi i j ≤ ahi - i := by
  have h := cpl_le_left (sliceL a i (ahi - i)) (sliceL b j (bhi - j))
  have h2 : (sliceL a i (ahi - i)).length ≤ ahi - i := by
    simp [sliceL]
  exact h.trans h2

theorem matchLen_le_right {α : Type} [DecidableEq α] (a b : List α) (ahi bhi i j : Nat) :
    matchLen a b ahi bhi i j ≤ bhi - j := by
  have h := cpl_le_right (sliceL a i (ahi - i)) (sliceL b j (bhi - j))
  have h2 : (sliceL b j (bhi - j)).length ≤ bhi - j := by
    simp [sliceL]
  exact h.trans h2

theorem sliceL_eq_of_matchLen {α : Type} [DecidableEq α] (a b : List α) (ahi bhi i j : Nat) :
    sliceL a i (matchLen a b ahi bhi i j) = sliceL b j (matchLen a b ahi bhi i j) := by
  have h := take_cpl_eq (sliceL a i (ahi - i)) (sliceL b j (bhi - j))
  have hL : (sliceL a i (ahi - i)).take (matchLen a b ahi bhi i j) =
      sliceL a i (matchLen a b ahi bhi i j) := by
    unfold sliceL
    rw [List.take_take, Nat.min_eq_left (matchLen_le_left a b ahi bhi i j)]
  have hR : (sliceL b j (bhi - j)).take (matchLen a b ahi bhi i j) =
      sliceL b j (matchLen a b ahi bhi i j) := by
    unfold sliceL
    rw [List.take_take, Nat.min_eq_left (matchLen_le_right a b ahi bhi i j)]
  rw [← hL, ← hR]
  exact h

theorem foldl_flmPick_valid {α : Type} (a b : List α) (alo ahi blo bhi : Nat)
    (l : List (Nat × Nat × Nat)) (init : Nat × Nat × Nat)
    (hinit : FlmValid a b alo ahi blo bhi init)
    (hl : ∀ c ∈ l, FlmValid a b alo ahi blo bhi c) :
    FlmValid a b alo ahi blo bhi (l.foldl flmPick init) := by
  induction l generalizing init with
  | nil => exact hinit
  | cons c cs ih =>
    refine ih (flmPick init c) ?_ (fun x hx => hl x (List.mem_cons_of_mem c hx))
    unfold flmPick
    by_cases h : init.2.2 < c.2.2
    · simpa [h] using hl c (List.mem_cons_self c cs)
    · simpa [h] using hinit

theorem flm_valid {α : Type} [DecidableEq α] (a b : List α) (alo ahi blo bhi : Nat)
    (ha : alo ≤ ahi) (hb : blo ≤ bhi) :
    FlmValid a b alo ahi blo bhi (find_longest_match a b alo ahi blo bhi) := by
  unfold find_longest_match
  apply foldl_flmPick_valid
  · exact ⟨Nat.le_refl _, Nat.le_refl _, by simpa using ha, by simpa using hb, rfl⟩
  · intro c hc
    unfold flmCandidates at hc
    simp only [List.mem_flatMap, List.mem_map, List.mem_range'_1] at hc
    obtain ⟨i, ⟨hi1, hi2⟩, j, ⟨hj1, hj2⟩, rfl⟩ := hc
    unfold FlmValid
    dsimp only
    refine ⟨hi1, hj1, ?_, ?_, sliceL_eq_of_matchLen a b ahi bhi i j⟩
    · have := matchLen_le_left a b ahi bhi i j
      omega
    · have := matchLen_le_right a b ahi bhi i j
      omega

theorem foldl_flmPick_keep (l : List (Nat × Nat × Nat)) (best : Nat × Nat × Nat)
    (h : ∀ c ∈ l, c.2.2 ≤ best.2.2) : l.foldl flmPick best = best := by
  induction l with
  | nil => rfl
  | cons c cs ih =>
    have hc : ¬ best.2.2 < c.2.2 := Nat.not_lt.mpr (h c (List.mem_cons_self c cs))
    simp only [List.foldl_cons, flmPick, hc, if_false]
    exact ih (fun x hx => h x (List.mem_cons_of_mem c hx))

theorem flmCandidates_k_le {α : Type} [DecidableEq α] (a b : List α)
    (alo ahi blo bhi : Nat) (c : Nat × Nat × Nat) (hc : c ∈ flmCandidates a b alo ahi blo bhi) :
    c.2.2 ≤ ahi - alo := by
  unfold flmCandidates at hc
  simp only [List.mem_flatMap, List.mem_map, List.mem_range'_1] at hc
  obtain ⟨i, ⟨hi1, hi2⟩, j, ⟨hj1, hj2⟩, rfl⟩ := hc
  have := matchLen_le_left a b ahi bhi i j
  dsimp only
  omega

theorem flm_self {α : Type} [DecidableEq α] (a : List α) :
    find_longest_match a a 0 a.length 0 a.length = (0, 0, a.length) := by
  cases hn : a.length with
  | zero => rfl
  | succ m =>
    have hml : matchLen a a (m + 1) (m + 1) 0 0 = m + 1 := by
      unfold matchLen sliceL
      rw [Nat.sub_zero, List.drop_zero, cpl_self, List.length_take, hn]
      exact Nat.min_self _
    have hcand : flmCandidates a a 0 (m + 1) 0 (m + 1) =
        (0, 0, m + 1) ::
          ((List.range' (0 + 1) m).map (fun j => (0, j, matchLen a a (m + 1) (m + 1) 0 j)) ++
            (List.range' (0 + 1) m).flatMap fun i =>
              (0 :: List.range' (0 + 1) m).map fun j => (i, j, matchLen a a (m + 1) (m + 1) i j)) := by
      unfold flmCandidates
      rw [Nat.sub_zero, List.range'_succ]
      rw [List.flatMap_cons, List.map_cons, hml, List.cons_append]
    unfold find_longest_match
    rw [hcand, List.foldl_cons]
    have hstep : flmPick (0, 0, 0) (0, 0, m + 1) = (0, 0, m + 1) := by
      simp [flmPick]
    rw [hstep]
    apply foldl_flmPick_keep
    intro c hc
    have hmem : c ∈ flmCandidates a a 0 (m + 1) 0 (m + 1) := by
      rw [hcand]
      exact List.mem_cons_of_mem _ hc
    have := flmCandidates_k_le a a 0 (m + 1) 0 (m + 1) c hmem
    simpa using this

theorem chain_mono {α : Type} {a b : List α} {hi hj i j i2 j2 : Nat}
    {l : List (Nat × Nat × Nat)} (h : Chain a b hi hj i2 j2 l) (h1 : i ≤ i2) (h2 : j ≤ j2) :
    Chain a b hi hj i j l := by
  cases h with
  | nil _ _ hb1 hb2 => exact Chain.nil i j (h1.trans hb1) (h2.trans hb2)
  | cons _ _ ai bj k tl ha hb hc hd he hf =>
    exact Chain.cons i j ai bj k tl (h1.trans ha) (h2.trans hb) hc hd he hf

theorem chain_append {α : Type} {a b : List α} {m n i j hi hj : Nat}
    {l1 l2 : List (Nat × Nat × Nat)} (h1 : Chain a b m n i j l1)
    (h2 : Chain a b hi hj m n l2) (hm : m ≤ hi) (hn : n ≤ hj) :
    Chain a b hi hj i j (l1 ++ l2) := by
  induction h1 with
  | nil i0 j0 hb1 hb2 => exact chain_mono h2 hb1 hb2
  | cons i0 j0 ai bj k tl ha hb hc hd he _ ih =>
    exact Chain.cons i0 j0 ai bj k (tl ++ l2) ha hb (hc.trans hm) (hd.trans hn) he ih

theorem mbAux_chain {α : Type} [DecidableEq α] (fuel : Nat) (a b : List α) :
    ∀ alo ahi blo bhi, alo ≤ ahi → blo ≤ bhi →
      Chain a b ahi bhi alo blo (matchingBlocksAux fuel a b alo ahi blo bhi) := by
  induction fuel with
  | zero =>
    intro alo ahi blo bhi ha hb
    exact Chain.nil alo blo ha hb
  | succ fuel ih =>
    intro alo ahi blo bhi ha hb
    have hval := flm_valid a b alo ahi blo bhi ha hb
    rcases hfl : find_longest_match a b alo ahi blo bhi with ⟨i, j, k⟩
    rw [hfl] at hval
    obtain ⟨h1, h2, h3, h4, h5⟩ := hval
    simp only [matchingBlocksAux, hfl]
    by_cases hk : k = 0
    · simp only [hk, if_pos rfl]
      exact Chain.nil alo blo ha hb
    · simp only [hk, if_neg hk, if_false]
      have hleft : Chain a b i j alo blo (matchingBlocksAux fuel a b alo i blo j) :=
        ih alo i blo j h1 h2
      have hright : Chain a b ahi bhi (i + k) (j + k)
          (matchingBlocksAux fuel a b (i + k) ahi (j + k) bhi) :=
        ih (i + k) ahi (j + k) bhi h3 h4
      have hmid : Chain a b ahi bhi i j
          ((i, j, k) :: matchingBlocksAux fuel a b (i + k) ahi (j + k) bhi) :=
        Chain.cons i j i j k _ (Nat.le_refl i) (Nat.le_refl j) h3 h4 h5 hright
      exact chain_append hleft hmid (Nat.le_of_add_right_le h3) (Nat.le_of_add_right_le h4)

theorem dropEq_of_opcodes_equal {α : Type} [DecidableEq α] (a b : List α)
    (blocks : List (Nat × Nat × Nat)) (i j : Nat)
    (hch : Chain a b a.length b.length i j blocks) :
    (∀ op ∈ opcodesAux i j (blocks ++ [(a.length, b.length, 0)]), op.tag = OpTag.equal) →
    a.drop i = b.drop j := by
  induction hch with
  | nil i j hbi hbj =>
    intro hall
    simp only [List.nil_append, opcodesAux] at hall
    by_cases h2 : i < a.length
    · by_cases h3 : j < b.length
      · have := hall ⟨.replace, i, a.length, j, b.length⟩ (by simp [h2, h3])
        simp at this
      · have := hall ⟨.delete, i, a.length, j, b.length⟩ (by simp [h2, h3])
        simp at this
    · by_cases h3 : j < b.length
      · have := hall ⟨.insert, i, a.length, j, b.length⟩ (by simp [h2, h3])
        simp at this
      · rw [List.drop_eq_nil_of_le (Nat.le_of_not_lt h2),
          List.drop_eq_nil_of_le (Nat.le_of_not_lt h3)]
  | cons i j ai bj k tl ha hb hc hd he hrest ih =>
    intro hall
    simp only [List.cons_append, opcodesAux] at hall
    have hia : i = ai := by
      by_contra hne
      have hi : i < ai := Nat.lt_of_le_of_ne ha hne
      by_cases hj : j < bj
      · have := hall ⟨.replace, i, ai, j, bj⟩ (by simp [hi, hj])
        simp at this
      · have := hall ⟨.delete, i, ai, j, bj⟩ (by simp [hi, hj])
        simp at this
    have hjb : j = bj := by
      by_contra hne
      have hj : j < bj := Nat.lt_of_le_of_ne hb hne
      have hni : ¬ i < ai := by
        rw [hia]
        exact Nat.lt_irrefl ai
      have := hall ⟨.insert, i, ai, j, bj⟩ (by simp [hni, hj])
      simp at this
    subst hia
    subst hjb
    have htail := ih ?_
    · have hA : a.drop i = sliceL a i k ++ a.drop (i + k) := by
        unfold sliceL
        rw [← List.drop_drop]
        exact (List.take_append_drop k (a.drop i)).symm
      have hB : b.drop j = sliceL b j k ++ b.drop (j + k) := by
        unfold sliceL
        rw [← List.drop_drop]
        exact (List.take_append_drop k (b.drop j)).symm
      rw [hA, hB, he, htail]
    · intro op hop
      refine hall op ?_
      simp only [List.mem_append]
      right
      exact hop

theorem term_chain {α : Type} [DecidableEq α] (a b : List α) :
    Chain a b a.length b.length a.length b.length [(a.length, b.length, 0)] := by
  refine Chain.cons _ _ _ _ _ _ (Nat.le_refl _) (Nat.le_refl _) (by omega) (by omega) rfl ?_
  exact Chain.nil _ _ (by omega) (by omega)

theorem get_matching_blocks_chain {α : Type} [DecidableEq α] (a b : List α) :
    Chain a b a.length b.length 0 0 (get_matching_blocks a b) := by
  unfold get_matching_blocks
  refine chain_append ?_ (term_chain a b) (Nat.le_refl _) (Nat.le_refl _)
  exact mbAux_chain _ a b 0 a.length 0 b.length (Nat.zero_le _) (Nat.zero_le _)

theorem eq_of_opcodes_all_equal {α : Type} [DecidableEq α] (a b : List α)
    (hall : ∀ op ∈ get_opcodes a b, op.tag = OpTag.equal) : a = b := by
  have hch := mbAux_chain (a.length + b.length + 1) a b 0 a.length 0 b.length
    (Nat.zero_le _) (Nat.zero_le _)
  have := dropEq_of_opcodes_equal a b _ 0 0 hch hall
  simpa using this

theorem flm_eq_init {α : Type} [DecidableEq α] (a b : List α) (alo ahi blo bhi : Nat)
    (h : ahi ≤ alo) : find_longest_match a b alo ahi blo bhi = (alo, blo, 0) := by
  unfold find_longest_match flmCandidates
  rw [Nat.sub_eq_zero_of_le h]
  rfl

theorem mbAux_nil_of_le {α : Type} [DecidableEq α] (fuel : Nat) (a b : List α)
    (alo ahi blo bhi : Nat) (h : ahi ≤ alo) :
    matchingBlocksAux fuel a b alo ahi blo bhi = [] := by
  cases fuel with
  | zero => rfl
  | succ fuel =>
    simp [matchingBlocksAux, flm_eq_init a b alo ahi blo bhi h]

theorem get_matching_blocks_self {α : Type} [DecidableEq α] (a : List α) :
    get_matching_blocks a a =
      (if a.length = 0 then [] else [(0, 0, a.length)]) ++ [(a.length, a.length, 0)] := by
  unfold get_matching_blocks
  congr 1
  cases hfuel : a.length + a.length + 1 with
  | zero => omega
  | succ fuel =>
    simp only [matchingBlocksAux, flm_self a]
    by_cases h0 : a.length = 0
    · simp [h0]
    · simp only [h0, if_neg h0, if_false]
      rw [mbAux_nil_of_le fuel a a 0 0 0 0 (Nat.le_refl 0),
        mbAux_nil_of_le fuel a a (0 + a.length) a.length (0 + a.length) a.length (by omega)]
      rfl

theorem get_opcodes_self {α : Type} [DecidableEq α] (a : List α) :
    get_opcodes a a =
      if a.length = 0 then [] else [⟨.equal, 0, a.length, 0, a.length⟩] := by
  unfold get_opcodes
  rw [get_matching_blocks_self a]
  by_cases h0 : a.length = 0
  · simp [h0, opcodesAux]
  · simp [h0, opcodesAux]

theorem opcodes_all_equal_self {α : Type} [DecidableEq α] (a : List α) :
    ∀ op ∈ get_opcodes a a, op.tag = OpTag.equal := by
  intro op hop
  rw [get_opcodes_self a] at hop
  by_cases h0 : a.length = 0
  · simp [h0] at hop
  · simp only [h0, if_false, List.mem_singleton] at hop
    rw [hop]

theorem opcodesAux_bounds {α : Type} {a b : List α} {la lb : Nat}
    {blocks : List (Nat × Nat × Nat)} {i j : Nat}
    (hch : Chain a b la lb i j blocks) :
    ∀ op ∈ opcodesAux i j blocks, OpcodeBounds la lb op := by
  induction hch with
  | nil i j hbi hbj =>
    intro op hop
    simp [opcodesAux] at hop
  | cons i j ai bj k tl ha hb hc hd he hrest ih =>
    intro op hop
    simp only [opcodesAux, List.mem_append] at hop
    rcases hop with (hop | hop) | hop
    · by_cases h1 : i < ai ∧ j < bj
      · simp only [if_pos h1, List.mem_singleton] at hop
        subst hop
        unfold OpcodeBounds
        dsimp only
        refine ⟨ha, by omega, hb, by omega, fun _ => h1, fun _ => h1.1, fun _ => h1.2⟩
      · by_cases h2 : i < ai
        · simp only [if_neg h1, if_pos h2, List.mem_singleton] at hop
          subst hop
          unfold OpcodeBounds
          dsimp only
          refine ⟨ha, by omega, hb, by omega, ?_, fun _ => h2, ?_⟩
          · intro htag
            simp at htag
          · intro htag
            simp at htag
        · by_cases h3 : j < bj
          · simp only [if_neg h1, if_neg h2, if_pos h3, List.mem_singleton] at hop
            subst hop
            unfold OpcodeBounds
            dsimp only
            refine ⟨ha, by omega, hb, by omega, ?_, ?_, fun _ => h3⟩
            · intro htag
              simp at htag
            · intro htag
              simp at htag
          · simp [if_neg h1, if_neg h2, if_neg h3] at hop
    · by_cases hk : k = 0
      · simp [hk] at hop
      · simp only [if_neg hk, List.mem_singleton] at hop
        subst hop
        unfold OpcodeBounds
        dsimp only
        refine ⟨by omega, by omega, by omega, by omega, ?_, ?_, ?_⟩ <;>
          · intro htag
            simp at htag
    · exact ih op hop

theorem get_opcodes_bounds {α : Type} [DecidableEq α] (a b : List α) :
    ∀ op ∈ get_opcodes a b, OpcodeBounds a.length b.length op :=
  opcodesAux_bounds (get_matching_blocks_chain a b)

theorem tier_eq_nil_iff {α ε : Type} [DecidableEq α] (A B : List α) (emit : Opcode → List ε)
    (h_eq : ∀ op, op.tag = OpTag.equal → emit op = [])
    (h_ne : ∀ op, op.tag ≠ OpTag.equal → OpcodeBounds A.length B.length op → emit op ≠ []) :
    ((get_opcodes A B).flatMap emit = [] ↔ A = B) := by
  constructor
  · intro hnil
    apply eq_of_opcodes_all_equal
    intro op hop
    by_contra hne
    have hemit : emit op = [] := by
      rw [List.flatMap_eq_nil_iff] at hnil
      exact hnil op hop
    exact h_ne op hne (get_opcodes_bounds A B op hop) hemit
  · intro hAB
    subst hAB
    rw [List.flatMap_eq_nil_iff]
    intro op hop
    exact h_eq op (opcodes_all_equal_self A op hop)

theorem structEditsFor_ne_nil (caseMap : JsonMap) (kps : List KeyPath) (sigs : List Sig)
    (op : Opcode) (hne : op.tag ≠ OpTag.equal)
    (hb : OpcodeBounds kps.length sigs.length op) :
    structEditsFor caseMap kps sigs op ≠ [] := by
  unfold structEditsFor
  rw [if_neg hne]
  obtain ⟨h1, h2, h3, h4, hrep, hdel, hins⟩ := hb
  apply List.ne_nil_of_length_pos
  simp only [List.length_append, List.length_zipWith, List.length_take, List.length_drop,
    List.length_map, sliceL]
  cases htag : op.tag with
  | equal => exact absurd htag hne
  | replace =>
    have := hrep htag
    omega
  | delete =>
    have := hdel htag
    omega
  | insert =>
    have := hins htag
    omega

theorem scalarEditsFor_ne_nil (kps : List KeyPath) (vals : List JVal)
    (op : Opcode) (hne : op.tag ≠ OpTag.equal)
    (hb : OpcodeBounds kps.length vals.length op) :
    scalarEditsFor kps vals op ≠ [] := by
  unfold scalarEditsFor
  rw [if_neg hne]
  obtain ⟨h1, h2, h3, h4, hrep, hdel, hins⟩ := hb
  apply List.ne_nil_of_length_pos
  simp only [List.length_append, List.length_zipWith, List.length_take, List.length_drop,
    List.length_map, sliceL]
  cases htag : op.tag with
  | equal => exact absurd htag hne
  | replace =>
    have := hrep htag
    omega
  | delete =>
    have := hdel htag
    omega
  | insert =>
    have := hins htag
    omega

theorem substruct_signature_diffs_eq_nil_iff (ref_map case_map : JsonMap) :
    (substruct_signature_diffs ref_map case_map = [] ↔
      ref_map.substruct_signatures = case_map.substruct_signatures) := by
  unfold substruct_signature_diffs
  apply tier_eq_nil_iff
  · intro op h
    unfold structEditsFor
    rw [if_pos h]
  · intro op hne hb
    apply structEditsFor_ne_nil _ _ _ _ hne
    have hk : ref_map.substruct_key_paths.length = ref_map.substruct_signatures.length := by
      simp [JsonMap.substruct_key_paths, JsonMap.substruct_signatures]
    rw [hk]
    exact hb

theorem substruct_location_diffs_eq_nil_iff (ref_map case_map : JsonMap) :
    (substruct_location_diffs ref_map case_map = [] ↔
      ref_map.substruct_locations = case_map.substruct_locations) := by
  unfold substruct_location_diffs
  apply tier_eq_nil_iff
  · intro op h
    unfold structEditsFor
    rw [if_pos h]
  · intro op hne hb
    apply structEditsFor_ne_nil _ _ _ _ hne
    simpa using hb

theorem scalar_diffs_eq_nil_iff (ref_map case_map : JsonMap) :
    (scalar_diffs ref_map case_map = [] ↔ ref_map.scalars = case_map.scalars) := by
  unfold scalar_diffs
  apply tier_eq_nil_iff
  · intro op h
    unfold scalarEditsFor
    rw [if_pos h]
  · intro op hne hb
    apply scalarEditsFor_ne_nil _ _ _ hne
    simpa using hb

/-- C1: `JsonComparer.diff` returns a `Delta` of three edit sequences of
which at most one is non-empty, and all three are empty exactly when the
two documents have equal sorted substructure-signature sequences, equal
document-order `(key path, signature)` sequences, and equal
document-order scalar `(key path, value)` sequences. -/
theorem c1_diff_tiers (ref case : JVal) :
    (((JsonComparer.diff ref case).structure_location_diffs = [] ∧
        (JsonComparer.diff ref case).scalar_diffs = []) ∨
      ((JsonComparer.diff ref case).structure_diffs = [] ∧
        (JsonComparer.diff ref case).scalar_diffs = []) ∨
      ((JsonComparer.diff ref case).structure_diffs = [] ∧
        (JsonComparer.diff ref case).structure_location_diffs = [])) ∧
    (((JsonComparer.diff ref case).structure_diffs = [] ∧
        (JsonComparer.diff ref case).structure_location_diffs = [] ∧
        (JsonComparer.diff ref case).scalar_diffs = []) ↔
      ((JsonMap.of ref).substruct_signatures = (JsonMap.of case).substruct_signatures ∧
        (JsonMap.of ref).substruct_locations = (JsonMap.of case).substruct_locations ∧
        (JsonMap.of ref).scalars = (JsonMap.of case).scalars)) := by
  have hd1 := substruct_signature_diffs_eq_nil_iff (JsonMap.of ref) (JsonMap.of case)
  have hd2 := substruct_location_diffs_eq_nil_iff (JsonMap.of ref) (JsonMap.of case)
  have hd3 := scalar_diffs_eq_nil_iff (JsonMap.of ref) (JsonMap.of case)
  by_cases h1 : substruct_signature_diffs (JsonMap.of ref) (JsonMap.of case) = []
  · by_cases h2 : substruct_location_diffs (JsonMap.of ref) (JsonMap.of case) = []
    · have hdiff : JsonComparer.diff ref case =
          ⟨[], [], scalar_diffs (JsonMap.of ref) (JsonMap.of case)⟩ := by
        unfold JsonComparer.diff
        rw [if_neg (by simpa using h1), if_neg (by simpa using h2)]
      rw [hdiff]
      refine ⟨.inr (.inr ⟨rfl, rfl⟩), ?_⟩
      simp only [true_and]
      rw [← hd1, ← hd2, ← hd3]
      constructor
      · intro h3
        exact ⟨h1, h2, h3⟩
      · intro h
        exact h.2.2
    · have hdiff : JsonComparer.diff ref case =
          ⟨[], substruct_location_diffs (JsonMap.of ref) (JsonMap.of case), []⟩ := by
        unfold JsonComparer.diff
        rw [if_neg (by simpa using h1), if_pos h2]
      rw [hdiff]
      refine ⟨.inr (.inl ⟨rfl, rfl⟩), ?_⟩
      rw [← hd1, ← hd2, ← hd3]
      constructor
      · intro h
        exact absurd h.2.1 h2
      · intro h
        exact absurd h.2.1 h2
  · have hdiff : JsonComparer.diff ref case =
        ⟨substruct_signature_diffs (JsonMap.of ref) (JsonMap.of case), [], []⟩ := by
      unfold JsonComparer.diff
      rw [if_pos h1]
    rw [hdiff]
    refine ⟨.inl ⟨rfl, rfl⟩, ?_⟩
    rw [← hd1, ← hd2, ← hd3]
    constructor
    · intro h
      exact absurd h.1 h1
    · intro h
      exact absurd h.1 h1

/-- C2: `Delta.edit_distance` is the 3-tuple of tier lengths, and under
lexicographic tuple comparison a scalar-only delta is strictly below a
location-only delta, which is strictly below a presence-only delta. -/
theorem c2_edit_distance_ranking (d ds dl dp : Delta)
    (hds : ds.structure_diffs = [] ∧ ds.structure_location_diffs = [] ∧ ds.scalar_diffs ≠ [])
    (hdl : dl.structure_diffs = [] ∧ dl.structure_location_diffs ≠ [] ∧ dl.scalar_diffs = [])
    (hdp : dp.structure_diffs ≠ [] ∧ dp.structure_location_diffs = [] ∧ dp.scalar_diffs = []) :
    d.edit_distance = (d.structure_diffs.length, d.structure_location_diffs.length,
      d.scalar_diffs.length) ∧
    tripleLt ds.edit_distance dl.edit_distance ∧
    tripleLt dl.edit_distance dp.edit_distance := by
  obtain ⟨hs1, hs2, hs3⟩ := hds
  obtain ⟨hl1, hl2, hl3⟩ := hdl
  obtain ⟨hp1, hp2, hp3⟩ := hdp
  have hs3' : 0 < ds.scalar_diffs.length := List.length_pos.mpr hs3
  have hl2' : 0 < dl.structure_location_diffs.length := List.length_pos.mpr hl2
  have hp1' : 0 < dp.structure_diffs.length := List.length_pos.mpr hp1
  refine ⟨rfl, ?_, ?_⟩
  · simp only [tripleLt, Delta.edit_distance, hs1, hs2, hl1, hl3, List.length_nil]
    exact Or.inr ⟨trivial, Or.inl hl2'⟩
  · simp only [tripleLt, Delta.edit_distance, hl1, hl3, hp2, hp3, List.length_nil]
    exact Or.inl hp1'

/-- Witness for C2 at concrete one-edit deltas. -/
theorem c2_edit_distance_ranking_witness :
    tripleLt (Delta.mk [] [] [.ins .null]).edit_distance
        (Delta.mk [] [.del []] []).edit_distance ∧
      tripleLt (Delta.mk [] [.del []] []).edit_distance
        (Delta.mk [.del []] [] []).edit_distance := by
  have h := c2_edit_distance_ranking (Delta.mk [] [] [.ins .null])
    (Delta.mk [] [] [.ins .null]) (Delta.mk [] [.del []] []) (Delta.mk [.del []] [] [])
    (by refine ⟨rfl, rfl, ?_⟩; decide)
    (by refine ⟨rfl, ?_, rfl⟩; decide)
    (by refine ⟨?_, rfl, rfl⟩; decide)
  exact ⟨h.2.1, h.2.2⟩

theorem pairwise_orderedInsert_le {α : Type} (r : α → α → Prop) [DecidableRel r]
    (htot : ∀ a b, r a b ∨ r b a) (htr : ∀ a b c, r a b → r b c → r a c)
    (x : α) (l : List α) (hl : l.Pairwise r) :
    (List.orderedInsert r x l).Pairwise r := by
  induction l with
  | nil => simp [List.orderedInsert]
  | cons y ys ih =>
    rw [List.pairwise_cons] at hl
    obtain ⟨hy, hys⟩ := hl
    by_cases hxy : r x y
    · rw [List.orderedInsert, if_pos hxy]
      refine List.Pairwise.cons ?_ (List.Pairwise.cons hy hys)
      intro z hz
      rcases List.mem_cons.mp hz with rfl | hz
      · exact hxy
      · exact htr x y z hxy (hy z hz)
    · rw [List.orderedInsert, if_neg hxy]
      refine List.Pairwise.cons ?_ (ih hys)
      intro z hz
      rcases (List.mem_orderedInsert r).mp hz with heq | hz
      · rw [heq]
        rcases htot x y with h | h
        · exact absurd h hxy
        · exact h
      · exact hy z hz

theorem heapOfItems_perm {β : Type} (le : β → β → Prop) [DecidableRel le] (items : List β) :
    (heapOfItems le items).Perm items := by
  unfold heapOfItems
  suffices h : ∀ acc : List β,
      (items.foldl (fun h x => List.orderedInsert le x h) acc).Perm (acc ++ items) by
    simpa using h []
  induction items with
  | nil => simp
  | cons x xs ih =>
    intro acc
    simp only [List.foldl_cons]
    refine (ih (List.orderedInsert le x acc)).trans ?_
    have h1 : (List.orderedInsert le x acc ++ xs).Perm ((x :: acc) ++ xs) :=
      (List.perm_orderedInsert le x acc).append_right xs
    refine h1.trans ?_
    rw [List.cons_append]
    exact List.perm_middle.symm

theorem heapOfItems_pairwise {β : Type} (le : β → β → Prop) [DecidableRel le]
    (htot : ∀ a b, le a b ∨ le b a) (htr : ∀ a b c, le a b → le b c → le a c)
    (items : List β) : (heapOfItems le items).Pairwise le := by
  unfold heapOfItems
  suffices h : ∀ acc : List β, acc.Pairwise le →
      (items.foldl (fun h x => List.orderedInsert le x h) acc).Pairwise le by
    exact h [] (List.Pairwise.nil)
  induction items with
  | nil =>
    intro acc hacc
    simpa using hacc
  | cons x xs ih =>
    intro acc hacc
    simp only [List.foldl_cons]
    exact ih (List.orderedInsert le x acc) (pairwise_orderedInsert_le le htot htr x acc hacc)

theorem pairwise_orderedInsert_stable {α : Type} (r : α → α → Prop) [DecidableRel r]
    (R : α → α → Prop)
    (htot : ∀ a b, r a b ∨ r b a) (htr : ∀ a b c, r a b → r b c → r a c)
    (x : α) (l : List α)
    (hl : l.Pairwise (fun a b => r a b ∧ (r b a → R a b)))
    (hx : ∀ y ∈ l, R x y) :
    (List.orderedInsert r x l).Pairwise (fun a b => r a b ∧ (r b a → R a b)) := by
  induction l with
  | nil => simp [List.orderedInsert]
  | cons y ys ih =>
    rw [List.pairwise_cons] at hl
    obtain ⟨hy, hys⟩ := hl
    by_cases hxy : r x y
    · rw [List.orderedInsert, if_pos hxy]
      refine List.Pairwise.cons ?_ (List.Pairwise.cons hy hys)
      intro z hz
      rcases List.mem_cons.mp hz with rfl | hz
      · exact ⟨hxy, fun _ => hx z (List.mem_cons_self z ys)⟩
      · refine ⟨htr x y z hxy (hy z hz).1, fun _ => hx z (List.mem_cons_of_mem y hz)⟩
    · rw [List.orderedInsert, if_neg hxy]
      refine List.Pairwise.cons ?_ (ih hys (fun z hz => hx z (List.mem_cons_of_mem y hz)))
      intro z hz
      rcases (List.mem_orderedInsert r).mp hz with heq | hz
      · rw [heq]
        rcases htot x y with h | h
        · exact absurd h hxy
        · exact ⟨h, fun hc => absurd hc hxy⟩
      · exact hy z hz

theorem insertionSort_pairwise_stable {α : Type} (r : α → α → Prop) [DecidableRel r]
    (R : α → α → Prop)
    (htot : ∀ a b, r a b ∨ r b a) (htr : ∀ a b c, r a b → r b c → r a c)
    (l : List α) (hR : l.Pairwise R) :
    (List.insertionSort r l).Pairwise (fun a b => r a b ∧ (r b a → R a b)) := by
  induction l with
  | nil => simp
  | cons x xs ih =>
    rw [List.pairwise_cons] at hR
    obtain ⟨hx, hxs⟩ := hR
    rw [List.insertionSort]
    refine pairwise_orderedInsert_stable r R htot htr x _ (ih hxs) ?_
    intro y hy
    exact hx y ((List.perm_insertionSort r xs).mem_iff.mp hy)

/-! ## Association-list utility lemmas -/

theorem lookupA_append {κ ν : Type} [DecidableEq κ] (k : κ) (l1 l2 : List (κ × ν)) :
    lookupA k (l1 ++ l2) =
      match lookupA k l1 with
      | some v => some v
      | none => lookupA k l2 := by
  induction l1 with
  | nil => simp [lookupA]
  | cons e l1 ih =>
    by_cases h : e.1 = k
    · simp [lookupA, h]
    · simpa [lookupA, h] using ih

theorem lookupA_map_value {κ ν ν2 : Type} [DecidableEq κ] (k : κ) (f : ν → ν2)
    (l : List (κ × ν)) :
    lookupA k (l.map (fun e => (e.1, f e.2))) = (lookupA k l).map f := by
  induction l with
  | nil => simp [lookupA]
  | cons e l ih =>
    by_cases h : e.1 = k
    · simp [lookupA, h]
    · simpa [lookupA, h] using ih

theorem lookupA_filter_ne {κ ν : Type} [DecidableEq κ] (k : κ) (l : List (κ × ν)) :
    lookupA k (l.filter (fun e => e.1 ≠ k)) = none := by
  induction l with
  | nil => simp [lookupA]
  | cons e l ih =>
    by_cases h : e.1 = k
    · simpa [List.filter, h] using ih
    · simpa [List.filter, h, lookupA] using ih

theorem lookupA_mem_of_mem {κ ν : Type} [DecidableEq κ] (k : κ) (v : ν)
    (l : List (κ × ν)) (h : (k, v) ∈ l) : (lookupA k l).isSome := by
  induction l with
  | nil => simp at h
  | cons e l ih =>
    rcases List.mem_cons.mp h with heq | hmem
    · simp [lookupA, ← heq]
    · by_cases hk : e.1 = k
      · simp [lookupA, hk]
      · simpa [lookupA, hk] using ih hmem

theorem dictOfPairs_lookup {κ ν : Type} [DecidableEq κ] (k : κ) (v : ν)
    (pairs : List (κ × ν)) (h : (k, v) ∈ pairs) :
    ∃ w, lookupA k (dictOfPairs pairs) = some w := by
  induction pairs with
  | nil => simp at h
  | cons e rest ih =>
    rcases List.mem_cons.mp h with heq | hmem
    · subst heq
      rw [dictOfPairs]
      by_cases hc : containsKey k (dictOfPairs rest)
      · rw [if_pos hc]
        unfold containsKey at hc
        exact Option.isSome_iff_exists.mp hc
      · rw [if_neg hc]
        exact ⟨v, by simp [lookupA]⟩
    · obtain ⟨w, hw⟩ := ih hmem
      rw [dictOfPairs]
      by_cases hc : containsKey e.1 (dictOfPairs rest)
      · rw [if_pos hc]
        exact ⟨w, hw⟩
      · rw [if_neg hc]
        by_cases hk : e.1 = k
        · exact ⟨e.2, by simp [lookupA, hk]⟩
        · exact ⟨w, by simpa [lookupA, hk] using hw⟩

/-! ## C7: missing-query-parameter scenario -/

/-- C7: for the single recorded case `GET /foo?bar=BQ` and the request
`GET /foo`, `best_matches` returns a query-string-delta report whose one
delta has mods `[(field bar, add BQ)]` and touched-parameter values
`bar -> [BQ]`. -/
theorem c7_missing_query_param :
    ∃ qd : QDelta,
      ((Database.build [mkCase "GET" "/foo?bar=BQ"] []).bind
          (fun db => db.best_matches (mkCase "GET" "/foo"))) =
        some (.qstringParamsets [(qd, mkCase "GET" "/foo?bar=BQ")]) ∧
      qd.mods = [QMod.add (chars "bar") (chars "BQ")] ∧
      qd.params = [(chars "bar", [chars "BQ"])] := by
  refine ⟨⟨1, [(chars "bar", [chars "BQ"])], [QMod.add (chars "bar") (chars "BQ")]⟩,
    ?_, rfl, rfl⟩
  decide

/-! ## C9: empty case catalogue degrades gracefully -/

/-- C9: on a database built from no cases, `best_matches` on any request
(with its required string `url` and well-formed method) raises no
exception and returns the available-paths report serializing to a
`closest URL paths` key with an empty list. -/
theorem c9_empty_database (request : PyDict) (u meth : Str)
    (hurl : getStrField request (chars "url") = some u)
    (hmeth : http_method request = some meth) :
    ∃ db, Database.build [] [] = some db ∧
      db.best_matches request = some (.availablePaths []) ∧
      (Report.availablePaths []).as_jsonic_data =
        [(chars "closest URL paths", .arr [])] := by
  refine ⟨_, rfl, ?_, rfl⟩
  have hrl : reqline request = some (meth, u) := by
    unfold reqline
    rw [hmeth, hurl]
  unfold Database.best_matches Database.report
  rw [hrl]
  simp [Option.bind, lookupA, request_url, hurl, Database.build]

/-- Witness for C9 at a concrete request. -/
theorem c9_empty_database_witness :
    ∃ db, Database.build [] [] = some db ∧
      db.best_matches (mkCase "get" "/foo") = some (.availablePaths []) ∧
      (Report.availablePaths []).as_jsonic_data =
        [(chars "closest URL paths", .arr [])] :=
  c9_empty_database (mkCase "get" "/foo") (chars "/foo") (chars "get") (by decide) (by decide)

/-! ## C10: missing methods default to get -/

theorem mem_of_mapMO {α β : Type} (f : α → Option β) :
    ∀ (l : List α) (ms : List β), mapMO f l = some ms →
      ∀ x ∈ l, ∀ y, f x = some y → y ∈ ms := by
  intro l
  induction l with
  | nil =>
    intro ms hms x hx
    simp at hx
  | cons a l ih =>
    intro ms hms x hx y hy
    unfold mapMO at hms
    cases hfa : f a with
    | none => simp [hfa] at hms
    | some b =>
      cases hfl : mapMO f l with
      | none => simp [hfa, hfl] at hms
      | some bs =>
        simp only [hfa, hfl, Option.some_inj] at hms
        subst hms
        rcases List.mem_cons.mp hx with rfl | hx
        · rw [hfa] at hy
          exact List.mem_cons.mpr (.inl (Option.some_inj.mp hy).symm)
        · exact List.mem_cons.mpr (.inr (ih bs hfl x hx y hy))

/-- C10: a case or request mapping without a `method` key is treated by
every method-reading operation as having method `get`: `_http_method`
yields `get`, the reqline key is `(get, url)`, and an available-methods
report over a group containing such a case contains `get`; present
string methods are lowercased. -/
theorem c10_default_method (m : PyDict) (grp : List PyDict) (ms : List Str) :
    (pyGet m (chars "method") = none →
      http_method m = some (chars "get") ∧
      (∀ u, getStrField m (chars "url") = some u →
        reqline m = some (chars "get", u))) ∧
    (∀ s, pyGet m (chars "method") = some (.j (.str s)) →
      http_method m = some (strLower s)) ∧
    (mapMO http_method grp = some ms → m ∈ grp → pyGet m (chars "method") = none →
      ∃ out, report_available_methods grp = some (Report.httpMethods out) ∧
        chars "get" ∈ out) := by
  refine ⟨?_, ?_, ?_⟩
  · intro h
    have hm : http_method m = some (chars "get") := by
      unfold http_method
      rw [h]
    refine ⟨hm, ?_⟩
    intro u hu
    unfold reqline
    rw [hm, hu]
  · intro s h
    unfold http_method
    rw [h]
  · intro hmap hmem hnone
    refine ⟨ms.dedup, ?_, ?_⟩
    · unfold report_available_methods
      rw [hmap]
      rfl
    · have hgm : http_method m = some (chars "get") := by
        unfold http_method
        rw [hnone]
      exact List.mem_dedup.mpr (mem_of_mapMO http_method grp ms hmap m hmem _ hgm)

/-- Witness for C10 at a concrete method-less mapping. -/
theorem c10_default_method_witness :
    http_method [(chars "url", PyVal.j (.str (chars "/z")))] = some (chars "get") ∧
    reqline [(chars "url", PyVal.j (.str (chars "/z")))] =
      some (chars "get", chars "/z") ∧
    http_method (mkCase "POST" "/z") = some (chars "post") ∧
    ∃ out, report_available_methods [[(chars "url", PyVal.j (.str (chars "/z")))]] =
      some (Report.httpMethods out) ∧ chars "get" ∈ out := by
  have h := c10_default_method [(chars "url", PyVal.j (.str (chars "/z")))]
    [[(chars "url", PyVal.j (.str (chars "/z")))]] [chars "get"]
  have h2 := c10_default_method (mkCase "POST" "/z") [] []
  refine ⟨(h.1 (by decide)).1, (h.1 (by decide)).2 (chars "/z") (by decide), ?_, ?_⟩
  · have := h2.2.1 (chars "POST") (by decide)
    simpa using this
  · exact h.2.2 (by decide) (by decide) (by decide)

/-! ## C4: method case sensitivity -/

/-- C4 counterexample: for a stored case `get /a` and a request
identical except for the letter-case of its method (`GET /a`), the exact
lookup misses (`get_case` returns `none`, not the stored case), even
though the reqline grouping key is the same; `_case_key` never
normalizes letter case. -/
theorem c4_counterexample :
    ((Database.build [mkCase "get" "/a"] []).map
        (fun db => db.get_case (mkCase "GET" "/a"))) = some none ∧
    reqline (mkCase "GET" "/a") = reqline (mkCase "get" "/a") ∧
    case_key [] (mkCase "GET" "/a") ≠ case_key [] (mkCase "get" "/a") := by
  refine ⟨by decide, by decide, by decide⟩

/-- C4 amended: method strings are compared case-insensitively by the
reqline grouping and the reqline-tier match (both use `_http_method`,
which lowercases), but not by the exact lookup: two mappings identical
except for method letter-case share the same reqline key. -/
theorem c4_reqline_case_insensitive (C R : PyDict) (u mR mC : Str)
    (hRurl : getStrField R (chars "url") = some u)
    (hCurl : getStrField C (chars "url") = some u)
    (hRm : pyGet R (chars "method") = some (.j (.str mR)))
    (hCm : pyGet C (chars "method") = some (.j (.str mC)))
    (hlow : strLower mR = strLower mC) :
    reqline R = reqline C := by
  unfold reqline http_method
  rw [hRurl, hCurl, hRm, hCm]
  dsimp only
  rw [hlow]

/-- Witness for the amended C4 at the concrete `GET`/`get` pair. -/
theorem c4_reqline_case_insensitive_witness :
    reqline (mkCase "GET" "/a") = reqline (mkCase "get" "/a") :=
  c4_reqline_case_insensitive (mkCase "get" "/a") (mkCase "GET" "/a") (chars "/a")
    (chars "GET") (chars "get") (by decide) (by decide) (by decide) (by decide) (by decide)

/-! ## C6: response status marks exact hits; cases never mutated -/

/-- C6: `json_exchange` output contains `response status` exactly when
the request hits a stored case (defaulting the value to 200 when the
case lacks the field), a miss report never contains `response status`,
and the database state is unchanged in both outcomes. -/
theorem c6_response_status (db : Database) (request : PyDict)
    (out : List (Str × OutVal)) (db2 : Database)
    (h : db.json_exchange request = some (out, db2)) :
    containsKey (chars "response status") out = (db.get_case request).isSome ∧
    db2 = db ∧
    (∀ case, db.get_case request = some case →
      containsKey (chars "response status") case = false →
      lookupA (chars "response status") out = some (OutVal.int 200)) := by
  unfold Database.json_exchange at h
  cases hc : db.get_case request with
  | some case =>
    rw [hc] at h
    simp only [Option.some_inj, Prod.mk.injEq] at h
    obtain ⟨hout, hdb⟩ := h
    have hckmap : containsKey (chars "response status") (case.map (fun e => (e.1, outOfPy e.2))) =
        containsKey (chars "response status") case := by
      unfold containsKey
      rw [lookupA_map_value]
      cases lookupA (chars "response status") case <;> rfl
    by_cases hck : containsKey (chars "response status") (case.map (fun e => (e.1, outOfPy e.2))) = true
    · rw [if_pos hck] at hout
      refine ⟨?_, hdb.symm, ?_⟩
      · rw [← hout, hck]
        rfl
      · intro case2 hc2 hnostatus
        cases Option.some_inj.mp hc2
        rw [hckmap] at hck
        rw [hnostatus] at hck
        simp at hck
    · rw [if_neg hck] at hout
      refine ⟨?_, hdb.symm, ?_⟩
      · rw [← hout]
        unfold containsKey
        rw [lookupA_append]
        have hnone : lookupA (chars "response status")
            (case.map (fun e => (e.1, outOfPy e.2))) = none := by
          unfold containsKey at hck
          simpa using hck
        rw [hnone]
        rfl
      · intro case2 hc2 hnostatus
        rw [← hout]
        rw [lookupA_append]
        have hnone : lookupA (chars "response status")
            (case.map (fun e => (e.1, outOfPy e.2))) = none := by
          unfold containsKey at hck
          simpa using hck
        rw [hnone]
        rfl
  | none =>
    rw [hc] at h
    rw [Option.map_eq_some'] at h
    obtain ⟨r, hr, heq⟩ := h
    have hout : (r.as_jsonic_data).filter (fun e => e.1 ≠ chars "response status") = out :=
      congrArg Prod.fst heq
    have hdb : db = db2 := congrArg Prod.snd heq
    refine ⟨?_, hdb.symm, ?_⟩
    · rw [← hout]
      unfold containsKey
      rw [lookupA_filter_ne]
      rfl
    · intro case2 hc2
      exact absurd hc2 (by simp)

/-- Witness for C6: a concrete hit (status defaulted to 200) and a
concrete miss (no `response status` in the report output). -/
theorem c6_response_status_witness :
    Database.build [mkCase "get" "/a"] [] = some dbOneCase ∧
    ∃ (out : List (Str × OutVal)) (db2 : Database)
      (outM : List (Str × OutVal)) (dbM : Database),
      dbOneCase.json_exchange (mkCase "get" "/a") = some (out, db2) ∧
      containsKey (chars "response status") out = true ∧
      db2 = dbOneCase ∧
      lookupA (chars "response status") out = some (OutVal.int 200) ∧
      dbOneCase.json_exchange (mkCase "put" "/a") = some (outM, dbM) ∧
      containsKey (chars "response status") outM = false ∧
      dbM = dbOneCase := by
  refine ⟨by decide, _, _, _, _, rfl, ?_, ?_, ?_, rfl, ?_, ?_⟩
  · have h := c6_response_status dbOneCase (mkCase "get" "/a") _ _ rfl
    rw [h.1]
    decide
  · exact (c6_response_status dbOneCase (mkCase "get" "/a") _ _ rfl).2.1
  · exact (c6_response_status dbOneCase (mkCase "get" "/a") _ _ rfl).2.2
      (mkCase "get" "/a") (by decide) (by decide)
  · have h := c6_response_status dbOneCase (mkCase "put" "/a") _ _ rfl
    rw [h.1]
    decide
  · exact (c6_response_status dbOneCase (mkCase "put" "/a") _ _ rfl).2.1

/-! ## C3: case-key agreement -/

theorem strLe_total (s t : Str) : strLe s t = true ∨ strLe t s = true := by
  induction s generalizing t with
  | nil => left; rfl
  | cons c cs ih =>
    cases t with
    | nil => right; rfl
    | cons d ds =>
      by_cases hcd : c = d
      · subst hcd
        rcases ih ds with h | h
        · left
          simpa [strLe] using h
        · right
          simpa [strLe] using h
      · rcases lt_trichotomy c d with h | h | h
        · left
          simp [strLe, hcd, h]
        · exact absurd h hcd
        · right
          simp [strLe, Ne.symm hcd, h]

theorem strLe_trans (a b c : Str) (h1 : strLe a b = true) (h2 : strLe b c = true) :
    strLe a c = true := by
  induction a generalizing b c with
  | nil => rfl
  | cons x xs ih =>
    cases b with
    | nil => simp [strLe] at h1
    | cons y ys =>
      cases c with
      | nil => simp [strLe] at h2
      | cons z zs =>
        by_cases hxy : x = y
        · subst hxy
          rw [strLe, if_pos rfl] at h1
          by_cases hyz : x = z
          · subst hyz
            rw [strLe, if_pos rfl] at h2 ⊢
            exact ih ys zs h1 h2
          · rw [strLe, if_neg hyz] at h2 ⊢
            exact h2
        · rw [strLe, if_neg hxy] at h1
          have hlt1 : x < y := of_decide_eq_true h1
          by_cases hyz : y = z
          · subst hyz
            rw [strLe, if_neg hxy]
            exact decide_eq_true hlt1
          · rw [strLe, if_neg hyz] at h2
            have hlt2 : y < z := of_decide_eq_true h2
            have hxz : x < z := hlt1.trans hlt2
            rw [strLe, if_neg (ne_of_lt hxz)]
            exact decide_eq_true hxz

theorem strLe_antisymm (a b : Str) (h1 : strLe a b = true) (h2 : strLe b a = true) :
    a = b := by
  induction a generalizing b with
  | nil =>
    cases b with
    | nil => rfl
    | cons y ys => simp [strLe] at h2
  | cons x xs ih =>
    cases b with
    | nil => simp [strLe] at h1
    | cons y ys =>
      by_cases hxy : x = y
      · subst hxy
        rw [strLe, if_pos rfl] at h1 h2
        rw [ih ys h1 h2]
      · rw [strLe, if_neg hxy] at h1
        rw [strLe, if_neg (Ne.symm hxy)] at h2
        have hlt1 : x < y := of_decide_eq_true h1
        have hlt2 : y < x := of_decide_eq_true h2
        exact absurd hlt2 (not_lt_of_gt hlt1)

theorem lookupA_filter_map {κ ν ν2 : Type} [DecidableEq κ] (p : κ → Bool) (f : ν → ν2)
    (k : κ) (hk : p k = true) (l : List (κ × ν)) :
    lookupA k ((l.filter (fun e => p e.1)).map (fun e => (e.1, f e.2))) =
      (lookupA k l).map f := by
  induction l with
  | nil => rfl
  | cons e l ih =>
    rcases e with ⟨k2, v⟩
    by_cases hke : k2 = k
    · subst hke
      simp [List.filter_cons, hk, lookupA]
    · by_cases hp : p k2 = true
      · simp only [List.filter_cons, hp, if_true, List.map_cons, lookupA, hke, if_false]
        exact ih
      · simp only [Bool.not_eq_true] at hp
        simp only [List.filter_cons, hp, Bool.false_eq_true, if_false, lookupA, hke]
        exact ih

theorem lookupA_filteredTaggedItems (addKeys : List Str) (m : PyDict) (k : Str)
    (hk : request_key addKeys k = true) :
    lookupA k (filteredTaggedItems addKeys m) = (pyGet m k).map value_lens :=
  lookupA_filter_map (request_key addKeys) value_lens k hk m

theorem mem_filter_map_keys_iff {κ ν ν2 : Type} [DecidableEq κ] (p : κ → Bool) (f : ν → ν2)
    (k : κ) (l : List (κ × ν)) :
    (k ∈ ((l.filter (fun e => p e.1)).map (fun e => (e.1, f e.2))).map Prod.fst) ↔
      (p k = true ∧ (lookupA k l).isSome = true) := by
  induction l with
  | nil => simp [lookupA]
  | cons e l ih =>
    rcases e with ⟨k2, v⟩
    by_cases hke : k2 = k
    · subst hke
      by_cases hp : p k2 = true
      · simp [List.filter_cons, hp, lookupA]
      · simp only [Bool.not_eq_true] at hp
        simp only [List.filter_cons, hp, Bool.false_eq_true, if_false]
        rw [ih]
        simp only [lookupA, if_pos rfl]
        constructor
        · intro h
          exact absurd h.1 (by simp [hp])
        · intro h
          exact absurd h.1 (by simp [hp])
    · by_cases hp : p k2 = true
      · simp only [List.filter_cons, hp, if_true, List.map_cons, List.mem_cons,
          lookupA, hke, if_false]
        constructor
        · intro h
          rcases h with h | h
          · exact absurd h.symm hke
          · exact ih.mp h
        · intro h
          exact .inr (ih.mpr h)
      · simp only [Bool.not_eq_true] at hp
        simp only [List.filter_cons, hp, Bool.false_eq_true, if_false, lookupA, hke]
        exact ih

theorem mem_viewKeys_iff (addKeys : List Str) (m : PyDict) (k : Str) :
    (k ∈ (filteredTaggedItems addKeys m).map Prod.fst) ↔
      (request_key addKeys k = true ∧ (pyGet m k).isSome = true) :=
  mem_filter_map_keys_iff (request_key addKeys) value_lens k m

theorem sortedKeys_eq (l1 l2 : List Str) (h1 : l1.Nodup) (h2 : l2.Nodup)
    (hmem : ∀ k, k ∈ l1 ↔ k ∈ l2) :
    List.insertionSort strLeP l1 = List.insertionSort strLeP l2 := by
  have hperm : l1.Perm l2 := (List.perm_ext_iff_of_nodup h1 h2).mpr hmem
  have hp : (List.insertionSort strLeP l1).Perm (List.insertionSort strLeP l2) :=
    ((List.perm_insertionSort strLeP l1).trans hperm).trans
      (List.perm_insertionSort strLeP l2).symm
  exact @List.eq_of_perm_of_sorted _ strLeP ⟨fun a b => strLe_antisymm a b⟩ _ _ hp
    (@List.sorted_insertionSort _ strLeP _ ⟨fun a b => strLe_total a b⟩
      ⟨fun a b c => strLe_trans a b c⟩ l1)
    (@List.sorted_insertionSort _ strLeP _ ⟨fun a b => strLe_total a b⟩
      ⟨fun a b c => strLe_trans a b c⟩ l2)

/-- C3: a request whose selected fields (method, url, request body, and
the configured additional keys) are identical to a stored case's after
tagging derives the same case key, so `get_case` returns whatever case
is stored under that key (which exists). -/
theorem c3_case_key_agreement (cases : List PyDict) (addKeys : List Str) (db : Database)
    (hdb : Database.build cases addKeys = some db) (C R : PyDict) (hC : C ∈ cases)
    (heq : ∀ k, request_key addKeys k = true →
      (pyGet R k).map value_lens = (pyGet C k).map value_lens) :
    case_key addKeys R = case_key addKeys C ∧
    db.get_case R = lookupA (case_key addKeys C) db.responses ∧
    ∃ C2, lookupA (case_key addKeys C) db.responses = some C2 := by
  have hkeys : ∀ k, k ∈ ((filteredTaggedItems addKeys R).map Prod.fst).dedup ↔
      k ∈ ((filteredTaggedItems addKeys C).map Prod.fst).dedup := by
    intro k
    rw [List.mem_dedup, List.mem_dedup, mem_viewKeys_iff, mem_viewKeys_iff]
    have hsome : ∀ hsel : request_key addKeys k = true,
        (pyGet R k).isSome = (pyGet C k).isSome := by
      intro hsel
      have h := heq k hsel
      cases hR : pyGet R k with
      | none =>
        cases hC2 : pyGet C k with
        | none => rfl
        | some w =>
          rw [hR, hC2] at h
          simp at h
      | some v =>
        cases hC2 : pyGet C k with
        | none =>
          rw [hR, hC2] at h
          simp at h
        | some w => rfl
    constructor
    · rintro ⟨hsel, hs⟩
      exact ⟨hsel, (hsome hsel).symm.trans hs⟩
    · rintro ⟨hsel, hs⟩
      exact ⟨hsel, (hsome hsel).trans hs⟩
  have hsorted :
      List.insertionSort strLeP ((filteredTaggedItems addKeys R).map Prod.fst).dedup =
        List.insertionSort strLeP ((filteredTaggedItems addKeys C).map Prod.fst).dedup :=
    sortedKeys_eq _ _ (List.nodup_dedup _) (List.nodup_dedup _) hkeys
  have hck : case_key addKeys R = case_key addKeys C := by
    unfold case_key hash_from_fields
    rw [hsorted]
    apply List.map_congr_left
    intro k hk
    have hkmem : k ∈ ((filteredTaggedItems addKeys C).map Prod.fst).dedup :=
      (List.perm_insertionSort strLeP _).mem_iff.mp hk
    have hsel : request_key addKeys k = true :=
      ((mem_viewKeys_iff addKeys C k).mp (List.mem_dedup.mp hkmem)).1
    have hlv : lookupA k (filteredTaggedItems addKeys R) =
        lookupA k (filteredTaggedItems addKeys C) := by
      rw [lookupA_filteredTaggedItems addKeys R k hsel,
        lookupA_filteredTaggedItems addKeys C k hsel, heq k hsel]
    exact congrArg (fun v => (k, v)) hlv
  have hinv : db.additional_request_keys = addKeys ∧
      db.responses = dictOfPairs (cases.map (fun c => (case_key addKeys c, c))) := by
    unfold Database.build at hdb
    by_cases hall : cases.all caseOk = true
    · rw [if_pos hall] at hdb
      cases Option.some_inj.mp hdb
      exact ⟨rfl, rfl⟩
    · rw [if_neg hall] at hdb
      simp at hdb
  have hmem : (case_key addKeys C, C) ∈ cases.map (fun c => (case_key addKeys c, c)) :=
    List.mem_map_of_mem _ hC
  obtain ⟨C2, hC2⟩ := dictOfPairs_lookup _ _ _ hmem
  refine ⟨hck, ?_, ⟨C2, ?_⟩⟩
  · unfold Database.get_case
    rw [hinv.1, hck]
  · rw [hinv.2]
    exact hC2

/-- Witness for C3: a stored case and a request listing the same
selected fields in a different dict order (and with an extra ignored
field) hit the stored case. -/
theorem c3_case_key_agreement_witness :
    ∃ db, Database.build [mkCaseB "get" "/a" (.bytes [1, 2])] [] = some db ∧
      case_key [] ([(chars "request body", PyVal.bytes [1, 2]),
          (chars "ignored", PyVal.j .null)] ++ mkCase "get" "/a") =
        case_key [] (mkCaseB "get" "/a" (.bytes [1, 2])) ∧
      db.get_case ([(chars "request body", PyVal.bytes [1, 2]),
          (chars "ignored", PyVal.j .null)] ++ mkCase "get" "/a") =
        some (mkCaseB "get" "/a" (.bytes [1, 2])) := by
  refine ⟨_, rfl, ?_⟩
  have h := c3_case_key_agreement [mkCaseB "get" "/a" (.bytes [1, 2])] [] _ rfl
    (mkCaseB "get" "/a" (.bytes [1, 2]))
    ([(chars "request body", PyVal.bytes [1, 2]),
      (chars "ignored", PyVal.j .null)] ++ mkCase "get" "/a")
    (by decide)
    (by
      intro k hk
      have hk2 : k = chars "method" ∨ k = chars "url" ∨ k = chars "request body" ∨
          k ∈ ([] : List Str) := by
        simpa [request_key] using hk
      rcases hk2 with rfl | rfl | rfl | h
      · decide
      · decide
      · decide
      · simp at h)
  refine ⟨h.1, ?_⟩
  rw [h.2.1]
  decide

/-! ## C5: closest request bodies -/

theorem bodyHeapLe_total (x y : BodyHeapItem) : bodyHeapLe x y ∨ bodyHeapLe y x := by
  obtain ⟨⟨⟨a1, a2, a3⟩, ai⟩, xd, xc⟩ := x
  obtain ⟨⟨⟨b1, b2, b3⟩, bi⟩, yd, yc⟩ := y
  unfold bodyHeapLe bodyKeyLe tripleLt
  dsimp only
  simp only [Prod.mk.injEq]
  omega

theorem bodyHeapLe_trans (x y z : BodyHeapItem) (h1 : bodyHeapLe x y) (h2 : bodyHeapLe y z) :
    bodyHeapLe x z := by
  obtain ⟨⟨⟨a1, a2, a3⟩, ai⟩, xd, xc⟩ := x
  obtain ⟨⟨⟨b1, b2, b3⟩, bi⟩, yd, yc⟩ := y
  obtain ⟨⟨⟨c1, c2, c3⟩, ci⟩, zd, zc⟩ := z
  unfold bodyHeapLe bodyKeyLe tripleLt at h1 h2 ⊢
  dsimp only at h1 h2 ⊢
  simp only [Prod.mk.injEq] at h1 h2 ⊢
  omega

/-- C5 counterexample: for the single same-reqline case with a dict
(structured) body and a request with a list (structured) body, the
spec's representation-type eligibility counts one candidate, but the
code compares exact Python types and emits an empty JSON-body report:
`0 = min 5 1` fails. -/
theorem c5_counterexample :
    ((Database.build [mkCaseB "post" "/x" (.j (.dict .nil))] []).bind
        (fun db => db.best_matches (mkCaseB "post" "/x" (.j (.list .nil))))) =
      some (.jsonBodies []) ∧
    ([mkCaseB "post" "/x" (.j (.dict .nil))].filter
        (fun c => specReprType (reqBody c) =
          specReprType (reqBody (mkCaseB "post" "/x" (.j (.list .nil)))))).length = 1 ∧
    (0 : Nat) ≠ min 5 1 := by
  refine ⟨by decide, by decide, by decide⟩

/-- C5 amended: among the same-reqline cases whose request-body Python
type equals the request's (exact `type(...)` equality, not the spec's
three-way representation classes), the emitted JSON-body-delta report
consists of the first `min(5, n)` entries of the heap ordered by
`(edit_distance tuple, insertion index)`, i.e. exactly the `min(5, n)`
closest candidates in ascending order with ties broken by original
position. -/
theorem c5_closest_request_bodies (db : Database) (req : PyDict) (rl : Str × Str)
    (group : List PyDict)
    (hrl : reqline req = some rl) (hgrp : lookupA rl db.reqlines = some group)
    (hmm : get_additional_fields_mismatch db req group = none)
    (hjson : is_jsonic_body (reqBody req) = true) :
    ∃ hs : List BodyHeapItem,
      hs.Perm (bodyHeapItems (jvalOf (reqBody req))
        (group.filter (fun c => pyTypeOf (reqBody c) = pyTypeOf (reqBody req)))) ∧
      hs.Pairwise bodyHeapLe ∧
      db.best_matches req =
        some (.jsonBodies ((hs.take (min 5 hs.length)).map (fun x => x.2))) ∧
      ((hs.take (min 5 hs.length)).map (fun x => x.2)).length =
        min 5 (group.filter
          (fun c => pyTypeOf (reqBody c) = pyTypeOf (reqBody req))).length := by
  refine ⟨heapOfItems bodyHeapLe (bodyHeapItems (jvalOf (reqBody req))
      (group.filter (fun c => pyTypeOf (reqBody c) = pyTypeOf (reqBody req)))),
    heapOfItems_perm _ _,
    heapOfItems_pairwise _ bodyHeapLe_total bodyHeapLe_trans _, ?_, ?_⟩
  · unfold Database.best_matches Database.report
    rw [hrl]
    simp only [Option.bind_eq_bind, Option.some_bind, hgrp, hmm]
    unfold report_closest_request_bodies
    rw [if_pos hjson]
  · have hlen : (heapOfItems bodyHeapLe (bodyHeapItems (jvalOf (reqBody req))
        (group.filter (fun c => pyTypeOf (reqBody c) = pyTypeOf (reqBody req))))).length =
          (group.filter (fun c => pyTypeOf (reqBody c) = pyTypeOf (reqBody req))).length := by
      rw [(heapOfItems_perm bodyHeapLe _).length_eq]
      unfold bodyHeapItems
      rw [List.length_map, List.enum_length]
    rw [List.length_map, List.length_take, hlen]
    omega

/-- Witness for the amended C5: with stored bodies `1` and `5` and
request body `5`, the exact-match body is emitted first. -/
theorem c5_closest_request_bodies_witness :
    (∃ hs : List BodyHeapItem,
      hs.Perm (bodyHeapItems (jvalOf (reqBody (mkCaseB "post" "/x" (.j (.int 5)))))
        ([mkCaseB "post" "/x" (.j (.int 1)), mkCaseB "post" "/x" (.j (.int 5))].filter
          (fun c => pyTypeOf (reqBody c) =
            pyTypeOf (reqBody (mkCaseB "post" "/x" (.j (.int 5))))))) ∧
      hs.Pairwise bodyHeapLe ∧
      dbTwoBodies.best_matches (mkCaseB "post" "/x" (.j (.int 5))) =
        some (.jsonBodies ((hs.take (min 5 hs.length)).map (fun x => x.2))) ∧
      ((hs.take (min 5 hs.length)).map (fun x => x.2)).length =
        min 5 ([mkCaseB "post" "/x" (.j (.int 1)),
          mkCaseB "post" "/x" (.j (.int 5))].filter
          (fun c => pyTypeOf (reqBody c) =
            pyTypeOf (reqBody (mkCaseB "post" "/x" (.j (.int 5)))))).length) ∧
    (dbTwoBodies.best_matches (mkCaseB "post" "/x" (.j (.int 5)))).map
        (fun r => match r with
          | .jsonBodies es => some (es.map (fun e => e.2))
          | _ => none) =
      some (some [mkCaseB "post" "/x" (.j (.int 5)), mkCaseB "post" "/x" (.j (.int 1))]) := by
  constructor
  · exact c5_closest_request_bodies dbTwoBodies (mkCaseB "post" "/x" (.j (.int 5)))
      (chars "post", chars "/x")
      [mkCaseB "post" "/x" (.j (.int 1)), mkCaseB "post" "/x" (.j (.int 5))]
      (by decide) (by decide) (by decide) (by decide)
  · decide

/-! ## C8: closest paths by Levenshtein distance -/

theorem nodup_pairwise_posIn {α : Type} [DecidableEq α] (l : List α) (h : l.Nodup) :
    l.Pairwise (fun a b => posIn a l < posIn b l) := by
  induction l with
  | nil => exact .nil
  | cons x xs ih =>
    rw [List.nodup_cons] at h
    refine List.Pairwise.cons ?_ ?_
    · intro b hb
      have hbx : x ≠ b := fun hxb => h.1 (hxb ▸ hb)
      simp only [posIn, if_pos rfl, if_neg hbx]
      exact Nat.succ_pos _
    · refine List.Pairwise.imp_of_mem ?_ (ih h.2)
      intro a b ha hb hr
      have hxa : x ≠ a := fun hxa => h.1 (hxa ▸ ha)
      have hxb : x ≠ b := fun hxb => h.1 (hxb ▸ hb)
      simp only [posIn, if_neg hxa, if_neg hxb]
      exact Nat.succ_lt_succ hr

/-- C8: when no recorded path equals the request's path (and no earlier
tier applies), the report lists the `min(5, number of distinct recorded
paths)` recorded paths of smallest Levenshtein distance to the request
path, in ascending distance order with ties in original insertion
order. -/
theorem c8_closest_paths (db : Database) (req : PyDict) (rl : Str × Str) (u : Str × QParams)
    (hrl : reqline req = some rl) (h1 : lookupA rl db.reqlines = none)
    (hu : request_url req = some u) (h2 : lookupA u db.urls = none)
    (h3 : lookupA u.1 db.paths = none)
    (hnodup : (db.paths.map Prod.fst).Nodup) :
    ∃ L : List Str,
      db.best_matches req =
        some (.availablePaths (L.map (fun p => (p, (lookupA p db.paths).getD [])))) ∧
      L.length = min 5 db.paths.length ∧
      (∀ p ∈ L, p ∈ db.paths.map Prod.fst) ∧
      L.Pairwise (fun p q => levDistance p u.1 < levDistance q u.1 ∨
        (levDistance p u.1 = levDistance q u.1 ∧
          posIn p (db.paths.map Prod.fst) < posIn q (db.paths.map Prod.fst))) ∧
      (∀ p ∈ db.paths.map Prod.fst, p ∉ L → ∀ q ∈ L,
        levDistance q u.1 < levDistance p u.1 ∨
        (levDistance q u.1 = levDistance p u.1 ∧
          posIn q (db.paths.map Prod.fst) < posIn p (db.paths.map Prod.fst))) := by
  unfold request_url at hu
  rw [Option.map_eq_some'] at hu
  obtain ⟨ustr, hustr, hfu⟩ := hu
  subst hfu
  have hconv : ∀ p q : Str,
      (levDistance p (urlSplit ustr).1 ≤ levDistance q (urlSplit ustr).1 ∧
        (levDistance q (urlSplit ustr).1 ≤ levDistance p (urlSplit ustr).1 →
          posIn p (db.paths.map Prod.fst) < posIn q (db.paths.map Prod.fst))) →
      (levDistance p (urlSplit ustr).1 < levDistance q (urlSplit ustr).1 ∨
        (levDistance p (urlSplit ustr).1 = levDistance q (urlSplit ustr).1 ∧
          posIn p (db.paths.map Prod.fst) < posIn q (db.paths.map Prod.fst))) := by
    intro p q hS
    by_cases hba : levDistance q (urlSplit ustr).1 ≤ levDistance p (urlSplit ustr).1
    · exact .inr ⟨Nat.le_antisymm hS.1 hba, hS.2 hba⟩
    · exact .inl (Nat.lt_of_le_of_ne hS.1 (fun he => hba (Nat.le_of_eq he.symm)))
  have hpairS := insertionSort_pairwise_stable
    (fun a b : Str => levDistance a (urlSplit ustr).1 ≤ levDistance b (urlSplit ustr).1)
    (fun a b : Str => posIn a (db.paths.map Prod.fst) < posIn b (db.paths.map Prod.fst))
    (fun a b => Nat.le_total _ _) (fun a b c => Nat.le_trans)
    (db.paths.map Prod.fst) (nodup_pairwise_posIn _ hnodup)
  refine ⟨(List.insertionSort
      (fun a b : Str => levDistance a (urlSplit ustr).1 ≤ levDistance b (urlSplit ustr).1)
      (db.paths.map Prod.fst)).take 5, ?_, ?_, ?_, ?_, ?_⟩
  · unfold Database.best_matches Database.report
    rw [hrl]
    simp only [Option.bind_eq_bind, Option.some_bind, h1]
    unfold request_url
    rw [hustr]
    simp only [Option.map_some', Option.some_bind, h2, Option.getD_some, h3]
  · rw [List.length_take, (List.perm_insertionSort _ _).length_eq, List.length_map]
  · intro p hp
    exact (List.perm_insertionSort _ _).mem_iff.mp (List.mem_of_mem_take hp)
  · exact ((hpairS.sublist (List.take_sublist 5 _)).imp (fun h => hconv _ _ h))
  · intro p hp hnotin q hq
    have hpS : p ∈ List.insertionSort
        (fun a b : Str => levDistance a (urlSplit ustr).1 ≤ levDistance b (urlSplit ustr).1)
        (db.paths.map Prod.fst) := (List.perm_insertionSort _ _).mem_iff.mpr hp
    rw [← List.take_append_drop 5 (List.insertionSort _ (db.paths.map Prod.fst))] at hpS
    rcases List.mem_append.mp hpS with hmem | hmem
    · exact absurd hmem hnotin
    · have hP2 := hpairS
      rw [← List.take_append_drop 5 (List.insertionSort
          (fun a b : Str => levDistance a (urlSplit ustr).1 ≤ levDistance b (urlSplit ustr).1)
          (db.paths.map Prod.fst))] at hP2
      exact hconv _ _ ((List.pairwise_append.mp hP2).2.2 q hq p hmem)

theorem c8_closest_paths_witness :
    ∃ L : List Str,
      dbWrongPaths.best_matches (mkCase "get" "/foo") =
        some (.availablePaths (L.map (fun p => (p, (lookupA p dbWrongPaths.paths).getD [])))) ∧
      L.length = min 5 dbWrongPaths.paths.length ∧
      (∀ p ∈ L, p ∈ dbWrongPaths.paths.map Prod.fst) ∧
      L.Pairwise (fun p q => levDistance p (chars "/foo") < levDistance q (chars "/foo") ∨
        (levDistance p (chars "/foo") = levDistance q (chars "/foo") ∧
          posIn p (dbWrongPaths.paths.map Prod.fst) < posIn q (dbWrongPaths.paths.map Prod.fst))) ∧
      (∀ p ∈ dbWrongPaths.paths.map Prod.fst,
        p ∉ L → ∀ q ∈ L,
        levDistance q (chars "/foo") < levDistance p (chars "/foo") ∨
        (levDistance q (chars "/foo") = levDistance p (chars "/foo") ∧
          posIn q (dbWrongPaths.paths.map Prod.fst) < posIn p (dbWrongPaths.paths.map Prod.fst))) :=
  c8_closest_paths dbWrongPaths (mkCase "get" "/foo") (chars "get", chars "/foo")
    (chars "/foo", []) (by decide) (by decide) (by decide) (by decide) (by decide) (by decide)
